import Mathlib

/-!
Shallow embedding of the html2text renderer (html2text.go) and proofs about
its specification. The Go package converts a parsed HTML node tree into plain
text through a recursive traversal (`traverse` / `handleElement`), a greedy
rune-width-aware line wrapper (`lineWrapper`), a table accumulator
(`handleTableElement`) and a final whitespace-normalization pass
(`FromHTMLNode`). Strings are modelled as Lean `String`s, the mutable
traversal context as an explicit state record threaded through the traversal,
and the one reachable Go panic (indexing `body[tmpRow]` out of range) as
`Option.none`.
-/

namespace Html2Text

/-! ## Go string primitives

These embed the `strings` / `unicode` standard-library calls the Go source
makes, working over `List Char` and lifted to `String`. -/

/-- Embeds Go `unicode.IsSpace`: the Unicode White_Space property, which for
the code points Go recognises is 0x09-0x0D, 0x20, 0x85, 0xA0, 0x1680,
0x2000-0x200A, 0x2028, 0x2029, 0x202F, 0x205F and 0x3000. -/
def goIsSpace (c : Char) : Bool :=
  let v := c.toNat
  v = 0x09 || v = 0x0A || v = 0x0B || v = 0x0C || v = 0x0D || v = 0x20 ||
  v = 0x85 || v = 0xA0 || v = 0x1680 ||
  (0x2000 ≤ v && v ≤ 0x200A) || v = 0x2028 || v = 0x2029 ||
  v = 0x202F || v = 0x205F || v = 0x3000

/-- Embeds Go `strings.TrimSpace`: drop leading and trailing whitespace. -/
def goTrimSpace (s : String) : String :=
  String.mk (((s.toList.dropWhile goIsSpace).reverse.dropWhile goIsSpace).reverse)

/-- Embeds Go `strings.TrimRightFunc(s, unicode.IsSpace)`. -/
def goTrimRightSpace (s : String) : String :=
  String.mk ((s.toList.reverse.dropWhile goIsSpace).reverse)

/-- Worker for `goFields`; `cur` is the current word accumulated in reverse. -/
def fieldsGo : List Char → List Char → List (List Char)
  | [], cur => if cur.isEmpty then [] else [cur.reverse]
  | c :: cs, cur =>
    if goIsSpace c then
      if cur.isEmpty then fieldsGo cs [] else cur.reverse :: fieldsGo cs []
    else fieldsGo cs (c :: cur)

/-- Embeds Go `strings.Fields`: split around runs of whitespace. -/
def goFields (s : String) : List String :=
  (fieldsGo s.toList []).map String.mk

/-- Worker for `splitNl`; `cur` is the current line accumulated in reverse. -/
def splitNlGo : List Char → List Char → List (List Char)
  | [], cur => [cur.reverse]
  | c :: cs, cur =>
    if c = '\n' then cur.reverse :: splitNlGo cs [] else splitNlGo cs (c :: cur)

/-- Embeds Go `strings.Split(s, "\n")`. -/
def splitNl (s : String) : List String :=
  (splitNlGo s.toList []).map String.mk

/-- Embeds Go `strings.Replace(s, "\n ", "\n", -1)`: one left-to-right pass
replacing each occurrence of newline-space by a newline, continuing the scan
after the consumed occurrence (the replacement is not re-examined). -/
def replaceNlSpace : List Char → List Char
  | [] => []
  | '\n' :: ' ' :: rest => '\n' :: replaceNlSpace rest
  | c :: rest => c :: replaceNlSpace rest

/-- Worker embedding the Go regexp replacement of
`newlineRe = \n\n+` by two newlines: every maximal run of two or more
newlines is replaced by exactly two. `pending` counts the newlines of the run
currently being scanned. -/
def collapseGo : List Char → Nat → List Char
  | [], pending => List.replicate (min pending 2) '\n'
  | c :: cs, pending =>
    if c = '\n' then collapseGo cs (pending + 1)
    else List.replicate (min pending 2) '\n' ++ c :: collapseGo cs 0

/-- Embeds `newlineRe.ReplaceAllString(s, "\n\n")`. -/
def collapseNewlines (s : String) : String :=
  String.mk (collapseGo s.toList 0)

/-- The final normalization pass of `FromHTMLNode`, in source order:
replace `"\n "` (one pass), collapse newline runs, trim. -/
def finalizeOutput (s : String) : String :=
  goTrimSpace (collapseNewlines (String.mk (replaceNlSpace s.toList)))

/-- Modelled from the spec: the display-width measure of the external
`go-runewidth` dependency (not part of this repository). Per the spec's
glossary, East-Asian wide characters (e.g. CJK) count as 2 columns and all
other characters as 1; the ranges below are the principal East-Asian Wide and
Fullwidth blocks. -/
def isWideRune (c : Char) : Bool :=
  let v := c.toNat
  (0x1100 ≤ v && v ≤ 0x115F) || (0x2E80 ≤ v && v ≤ 0x303E) ||
  (0x3041 ≤ v && v ≤ 0x33FF) || (0x3400 ≤ v && v ≤ 0x4DBF) ||
  (0x4E00 ≤ v && v ≤ 0x9FFF) || (0xA000 ≤ v && v ≤ 0xA4CF) ||
  (0xAC00 ≤ v && v ≤ 0xD7A3) || (0xF900 ≤ v && v ≤ 0xFAFF) ||
  (0xFE30 ≤ v && v ≤ 0xFE4F) || (0xFF00 ≤ v && v ≤ 0xFF60) ||
  (0xFFE0 ≤ v && v ≤ 0xFFE6) || (0x20000 ≤ v && v ≤ 0x2FFFD) ||
  (0x30000 ≤ v && v ≤ 0x3FFFD)

/-- Modelled from the spec: per-rune display width (2 for wide, 1 otherwise),
standing in for `runewidth.RuneWidth`. -/
def runeWidth (c : Char) : Nat := if isWideRune c then 2 else 1

/-- Modelled from the spec: `runewidth.StringWidth`, the sum of the
per-rune display widths. -/
def stringWidth (s : String) : Nat := (s.toList.map runeWidth).sum

/-! ## Data model -/

/-- The tag identities the Go source dispatches on (`atom.X` constants);
`other` stands for every remaining tag, which the dispatcher treats
uniformly (recurse into children). -/
inductive Atom where
  | a | b | blockquote | br | div | h1 | h2 | h3 | head | img | li | p
  | pre | script | strong | style | table | tbody | td | tfoot | th
  | thead | tr | ul | other
  deriving DecidableEq, Repr

/-- The parsed HTML node tree (`*html.Node`): text nodes carry their data,
element nodes a tag, attribute list and ordered children; `document` covers
the remaining node types (document, comment, doctype), which the traversal
treats by recursing into children. -/
inductive Node where
  | text (data : String) : Node
  | element (tag : Atom) (attrs : List (String × String)) (children : List Node) : Node
  | document (children : List Node) : Node

/-- Embeds `Options`. `PrettyTablesOptions` is omitted: it is passed through
unchanged to the external `tablewriter` collaborator and never read by the
rendering logic of this package. -/
structure Options where
  PrettyTables : Bool := false
  OmitLinks : Bool := false
  TextOnly : Bool := false
  deriving DecidableEq, Repr

/-- Embeds `getAttrVal`: value of the first attribute with the given key,
or the empty string. -/
def getAttrVal (attrs : List (String × String)) (attrName : String) : String :=
  match attrs.find? (fun attr => attr.1 = attrName) with
  | some attr => attr.2
  | none => ""

/-! ## Line wrapper

The Go `lineWrapper` writes to an `io.Writer` pointing at the context's
buffer; here each operation returns the bytes it writes alongside the
updated wrapper state, and the caller appends them to its buffer. -/

/-- Embeds `lineWrapper` (without the `out` writer, see above). -/
structure LineWrapper where
  width : Nat := 0
  n : Nat := 0
  nl : Nat := 0
  pendSpace : Nat := 0
  printed : Bool := false
  deriving DecidableEq, Repr

/-- Embeds `lineWrapper.flushN`. The Go parameter is an `int` that is
decremented by `l.nl` and compared against 1, so the intermediate value is
modelled as an `Int`. -/
def LineWrapper.flushN (l : LineWrapper) (k : Nat) : LineWrapper × String :=
  if l.n = 0 && l.nl ≥ k then (l, "")
  else
    let m : Int := (k : Int) - (l.nl : Int)
    if m < 1 then (l, "")
    else
      ({ l with pendSpace := 0, n := 0, nl := l.nl + m.toNat },
       String.mk (List.replicate m.toNat '\n'))

/-- Embeds `lineWrapper.flush`. -/
def LineWrapper.flush (l : LineWrapper) : LineWrapper × String :=
  l.flushN 1

/-- One iteration of the loop body of `lineWrapper.write` for a single
field `f`: wrap if the line is too long, then write the pending space and
the word. -/
def LineWrapper.writeWord (acc : LineWrapper × String) (f : String) :
    LineWrapper × String :=
  let l := acc.1
  let out := acc.2
  let w := stringWidth f
  let wrapped :=
    if l.n > 0 && l.n + l.pendSpace + w > l.width then
      ({ l with n := 0, pendSpace := 0 }, out ++ "\n")
    else (l, out)
  let l2 := wrapped.1
  let out2 := wrapped.2
  ({ l2 with n := l2.n + l2.pendSpace + w, pendSpace := 1 },
   out2 ++ String.mk (List.replicate l2.pendSpace ' ') ++ f)

/-- Embeds `lineWrapper.write`. -/
def LineWrapper.write (l : LineWrapper) (text : String) : LineWrapper × String :=
  let start :=
    if l.n = 0 && l.printed then l.flush else (l, "")
  let l1 := { start.1 with printed := true, nl := 0 }
  (goFields text).foldl LineWrapper.writeWord (l1, start.2)

/-! ## Traversal context -/

/-- Embeds `tableTraverseContext`. -/
structure TableTraverseContext where
  header : List String := []
  body : List (List String) := []
  footer : List String := []
  tmpRow : Nat := 0
  isInFooter : Bool := false
  deriving DecidableEq, Repr

/-- Embeds `tableTraverseContext.init`. -/
def TableTraverseContext.init : TableTraverseContext :=
  { body := [], header := [], footer := [], isInFooter := false, tmpRow := 0 }

/-- Embeds `textifyTraverseContext`. The Go field `prefix` is named
`linePfx` here because its Go name is a reserved Lean keyword. -/
structure TextifyTraverseContext where
  buf : String := ""
  linePfx : String := ""
  tableCtx : TableTraverseContext := {}
  options : Options := {}
  endsWithSpace : Bool := false
  justClosedDiv : Bool := false
  blockquoteLevel : Nat := 0
  tableLevel : Nat := 0
  lineWrapper : LineWrapper := {}
  isPre : Bool := false
  deriving DecidableEq, Repr

/-- Embeds `textifyTraverseContext.sub`: a fresh zero-valued context sharing
only the options and the wrapper width, with its own buffer. -/
def TextifyTraverseContext.sub (ctx : TextifyTraverseContext) :
    TextifyTraverseContext :=
  { options := ctx.options,
    lineWrapper := { width := ctx.lineWrapper.width } }

/-- Embeds `textifyTraverseContext.emit`. Inside a table subtree the wrapper
is flushed and the data is appended raw; outside, the literal values `""`,
`"\n"` and `"\n\n"` are flush control signals and everything else goes
through the wrapper. `emit` cannot fail. -/
def TextifyTraverseContext.emit (ctx : TextifyTraverseContext) (data : String) :
    TextifyTraverseContext :=
  if ctx.tableLevel > 0 then
    let fl := ctx.lineWrapper.flush
    { ctx with lineWrapper := fl.1, buf := ctx.buf ++ fl.2 ++ data }
  else if data = "" then ctx
  else if data = "\n" then
    let fl := ctx.lineWrapper.flush
    { ctx with lineWrapper := fl.1, buf := ctx.buf ++ fl.2 }
  else if data = "\n\n" then
    let fl := ctx.lineWrapper.flushN 2
    { ctx with lineWrapper := fl.1, buf := ctx.buf ++ fl.2 }
  else
    let wr := ctx.lineWrapper.write data
    { ctx with lineWrapper := wr.1, buf := ctx.buf ++ wr.2 }

/-- Embeds `textifyTraverseContext.normalizeHrefLink`: trim surrounding
whitespace, then strip a leading `mailto:`. -/
def TextifyTraverseContext.normalizeHrefLink (link : String) : String :=
  let link := goTrimSpace link
  match link.toList with
  | 'm' :: 'a' :: 'i' :: 'l' :: 't' :: 'o' :: ':' :: rest => String.mk rest
  | _ => link

/-- Modelled from the spec: the external `tablewriter` ASCII table renderer
(not part of this repository). The spec only requires that the assembled
`(header, body, footer)` matrix is handed to the collaborator and its
returned block is emitted; the concrete block layout is the collaborator's
business, modelled here as a fixed function of the matrix. -/
def tablewriterRender (header : List String) (body : List (List String))
    (footer : List String) : String :=
  String.intercalate "\n"
    (header ++ body.map (String.intercalate " ") ++ footer)

/-- The fresh context `FromHTMLNode` builds: given options, wrapper width 78
writing to the context's own buffer. -/
def initialContext (opts : Options) : TextifyTraverseContext :=
  { options := opts, lineWrapper := { width := 78 } }

/-! ## Traversal

The mutually recursive traversal. Go errors never actually arise (`emit`
cannot fail), but the renderer can panic when `handleTableElement` indexes
`body[tmpRow]` out of range; `Option.none` models that panic. -/

mutual

/-- Embeds `textifyTraverseContext.traverse`: text nodes are emitted (trimmed
unless in preformatted mode), element nodes dispatch to `handleElement`, and
every other node type recurses into its children. -/
def traverse (ctx : TextifyTraverseContext) :
    Node → Option TextifyTraverseContext
  | .text data =>
    let data := if ctx.isPre then data else goTrimSpace data
    some (ctx.emit data)
  | .element tag attrs children => handleElement ctx tag attrs children
  | .document children => traverseChildren ctx children
termination_by n => (sizeOf n, 4)

/-- Embeds `textifyTraverseContext.handleElement`: the tag dispatch switch.
The receiver node is passed as its tag, attribute list and children. -/
def handleElement (ctx : TextifyTraverseContext) (tag : Atom)
    (attrs : List (String × String)) (children : List Node) :
    Option TextifyTraverseContext :=
  let ctx := { ctx with justClosedDiv := false }
  match tag with
  | .br => some (ctx.emit "\n\n")
  | .h1 | .h2 | .h3 => do
    let subCtx ← traverseChildren ctx.sub children
    let str := subCtx.buf
    if ctx.options.TextOnly then
      pure (ctx.emit (str ++ "\n\n"))
    else
      let dividerLen := (splitNl str).foldl
        (fun acc line =>
          let line := goTrimRightSpace line
          let lineLen := stringWidth line
          if lineLen > acc then lineLen else acc) 0
      let divider :=
        if tag = .h1 then String.mk (List.replicate dividerLen '*')
        else String.mk (List.replicate dividerLen '-')
      let ctx := ctx.emit "\n\n"
      let ctx :=
        if tag = .h1 then (ctx.emit divider).emit "\n" else ctx
      let ctx := ctx.emit str
      let ctx := ctx.emit "\n"
      let ctx := ctx.emit divider
      pure (ctx.emit "\n\n")
  | .blockquote => do
    let ctx := { ctx with blockquoteLevel := ctx.blockquoteLevel + 1 }
    let ctx :=
      if !ctx.options.TextOnly then
        { ctx with linePfx := String.mk (List.replicate ctx.blockquoteLevel '>') ++ " " }
      else ctx
    let ctx := ctx.emit "\n"
    let ctx := if ctx.blockquoteLevel = 1 then ctx.emit "\n" else ctx
    let ctx ← traverseChildren ctx children
    let ctx := { ctx with blockquoteLevel := ctx.blockquoteLevel - 1 }
    let ctx :=
      if !ctx.options.TextOnly then
        { ctx with linePfx := String.mk (List.replicate ctx.blockquoteLevel '>') }
      else ctx
    let ctx :=
      if ctx.blockquoteLevel > 0 then { ctx with linePfx := ctx.linePfx ++ " " }
      else ctx
    pure (ctx.emit "\n\n")
  | .div => do
    let fl := ctx.lineWrapper.flush
    let ctx := { ctx with lineWrapper := fl.1, buf := ctx.buf ++ fl.2 }
    let ctx ← traverseChildren ctx children
    let ctx := if !ctx.justClosedDiv then ctx.emit "\n" else ctx
    pure { ctx with justClosedDiv := true }
  | .li => do
    let ctx := if !ctx.options.TextOnly then ctx.emit "- " else ctx
    let ctx ← traverseChildren ctx children
    pure (ctx.emit "\n")
  | .b | .strong => do
    let subCtx := { ctx.sub with endsWithSpace := true }
    let subCtx ← traverseChildren subCtx children
    let str := subCtx.buf
    if ctx.options.TextOnly then pure (ctx.emit str)
    else pure (ctx.emit ("*" ++ str ++ "*"))
  | .a => do
    let linkText :=
      match children with
      | [Node.text s] => s
      | _ => ""
    let imgAlt : Option String :=
      match children with
      | [Node.element .img imgAttrs _] => some (getAttrVal imgAttrs "alt")
      | _ => none
    let ctx ←
      match imgAlt with
      | some altText =>
        if altText ≠ "" then pure (ctx.emit altText) else pure ctx
      | none => traverseChildren ctx children
    let attrVal := getAttrVal attrs "href"
    let hrefLink :=
      if attrVal ≠ "" then
        let attrVal := TextifyTraverseContext.normalizeHrefLink attrVal
        if (!ctx.options.OmitLinks && attrVal ≠ "" && linkText ≠ attrVal)
            || !ctx.options.TextOnly then
          "(" ++ attrVal ++ ")"
        else ""
      else ""
    pure (ctx.emit hrefLink)
  | .p | .ul => paragraphHandler ctx children
  | .table =>
    let ctx := { ctx with tableLevel := ctx.tableLevel + 1 }
    let r :=
      if ctx.options.PrettyTables then handleTableElement ctx .table attrs children
      else paragraphHandler ctx children
    r.map (fun c => { c with tableLevel := c.tableLevel - 1 })
  | .tfoot | .th | .tr | .td =>
    if ctx.options.PrettyTables then handleTableElement ctx tag attrs children
    else traverseChildren ctx children
  | .pre => do
    let ctx := { ctx with isPre := true }
    let ctx ← traverseChildren ctx children
    pure { ctx with isPre := false }
  | .style | .script | .head => some ctx
  | _ => traverseChildren ctx children
termination_by (sizeOf children, 3)

/-- Embeds `paragraphHandler`: children surrounded by double newlines. -/
def paragraphHandler (ctx : TextifyTraverseContext) (children : List Node) :
    Option TextifyTraverseContext := do
  let ctx := ctx.emit "\n\n"
  let ctx ← traverseChildren ctx children
  pure (ctx.emit "\n\n")
termination_by (sizeOf children, 1)

/-- Embeds `handleTableElement` (only invoked when `PrettyTables` is active;
the Go assertion panic for the contrary case is `none`). The `td` case
indexes `body[tmpRow]`, which panics (`none`) when no row exists. -/
def handleTableElement (ctx : TextifyTraverseContext) (tag : Atom)
    (attrs : List (String × String)) (children : List Node) :
    Option TextifyTraverseContext :=
  if !ctx.options.PrettyTables then none
  else
    match tag with
    | .table => do
      let ctx := ctx.emit "\n\n"
      let ctx := { ctx with tableCtx := TableTraverseContext.init }
      let ctx ← traverseChildren ctx children
      let outStr := tablewriterRender ctx.tableCtx.header ctx.tableCtx.body
        ctx.tableCtx.footer
      let ctx := ctx.emit outStr
      pure (ctx.emit "\n\n")
    | .tfoot => do
      let ctx := { ctx with tableCtx := { ctx.tableCtx with isInFooter := true } }
      let ctx ← traverseChildren ctx children
      pure { ctx with tableCtx := { ctx.tableCtx with isInFooter := false } }
    | .tr => do
      let ctx := { ctx with tableCtx := { ctx.tableCtx with body := ctx.tableCtx.body ++ [[]] } }
      let ctx ← traverseChildren ctx children
      pure { ctx with tableCtx := { ctx.tableCtx with tmpRow := ctx.tableCtx.tmpRow + 1 } }
    | .th => do
      let res ← renderEachChild ctx.options children
      pure { ctx with tableCtx := { ctx.tableCtx with header := ctx.tableCtx.header ++ [res] } }
    | .td => do
      let res ← renderEachChild ctx.options children
      if ctx.tableCtx.isInFooter then
        pure { ctx with tableCtx := { ctx.tableCtx with footer := ctx.tableCtx.footer ++ [res] } }
      else
        if h : ctx.tableCtx.tmpRow < ctx.tableCtx.body.length then
          pure { ctx with tableCtx := { ctx.tableCtx with
            body := ctx.tableCtx.body.set ctx.tableCtx.tmpRow
              ((ctx.tableCtx.body.get ⟨ctx.tableCtx.tmpRow, h⟩) ++ [res]) } }
        else none
    | _ => some ctx
termination_by (sizeOf children, 2)

/-- Embeds `textifyTraverseContext.traverseChildren`: visit each child in
order, threading the context. -/
def traverseChildren (ctx : TextifyTraverseContext) :
    List Node → Option TextifyTraverseContext
  | [] => some ctx
  | c :: cs => do
    let ctx ← traverse ctx c
    traverseChildren ctx cs
termination_by l => (sizeOf l, 0)

/-- Embeds `renderEachChild`: render each direct child through a fresh
top-level render (the body of `FromHTMLNode`, inlined), joining the results
with a single newline between consecutive siblings. -/
def renderEachChild (opts : Options) : List Node → Option String
  | [] => some ""
  | [c] => do
    let sub ← traverse (initialContext opts) c
    pure (finalizeOutput sub.buf)
  | c :: c2 :: cs => do
    let sub ← traverse (initialContext opts) c
    let r ← renderEachChild opts (c2 :: cs)
    pure (finalizeOutput sub.buf ++ "\n" ++ r)
termination_by l => (sizeOf l, 0)

end

/-- Embeds `FromHTMLNode`: build a fresh context with wrapper width 78,
traverse the node, then apply the final normalization pass. A `none` result
models the Go panic from `handleTableElement`. -/
def FromHTMLNode (node : Node) (opts : Options := {}) : Option String := do
  let ctx ← traverse (initialContext opts) node
  pure (finalizeOutput ctx.buf)

/-! ## The traversal with the blockquote prefix assignments removed

An exact copy of the traversal in which the three assignments to the
context's `linePfx` field (Go field `prefix`) in the blockquote case of
`handleElement` are deleted. The spec asks whether this variant renders
identically (the prefix is computed but reportedly never read). -/

mutual

/-- `traverse` with the prefix assignments removed. -/
def traverseNP (ctx : TextifyTraverseContext) :
    Node → Option TextifyTraverseContext
  | .text data =>
    let data := if ctx.isPre then data else goTrimSpace data
    some (ctx.emit data)
  | .element tag attrs children => handleElementNP ctx tag attrs children
  | .document children => traverseChildrenNP ctx children
termination_by n => (sizeOf n, 4)

/-- `handleElement` with the prefix assignments removed (the only changed
case is `blockquote`). -/
def handleElementNP (ctx : TextifyTraverseContext) (tag : Atom)
    (attrs : List (String × String)) (children : List Node) :
    Option TextifyTraverseContext :=
  let ctx := { ctx with justClosedDiv := false }
  match tag with
  | .br => some (ctx.emit "\n\n")
  | .h1 | .h2 | .h3 => do
    let subCtx ← traverseChildrenNP ctx.sub children
    let str := subCtx.buf
    if ctx.options.TextOnly then
      pure (ctx.emit (str ++ "\n\n"))
    else
      let dividerLen := (splitNl str).foldl
        (fun acc line =>
          let line := goTrimRightSpace line
          let lineLen := stringWidth line
          if lineLen > acc then lineLen else acc) 0
      let divider :=
        if tag = .h1 then String.mk (List.replicate dividerLen '*')
        else String.mk (List.replicate dividerLen '-')
      let ctx := ctx.emit "\n\n"
      let ctx :=
        if tag = .h1 then (ctx.emit divider).emit "\n" else ctx
      let ctx := ctx.emit str
      let ctx := ctx.emit "\n"
      let ctx := ctx.emit divider
      pure (ctx.emit "\n\n")
  | .blockquote => do
    let ctx := { ctx with blockquoteLevel := ctx.blockquoteLevel + 1 }
    let ctx := ctx.emit "\n"
    let ctx := if ctx.blockquoteLevel = 1 then ctx.emit "\n" else ctx
    let ctx ← traverseChildrenNP ctx children
    let ctx := { ctx with blockquoteLevel := ctx.blockquoteLevel - 1 }
    pure (ctx.emit "\n\n")
  | .div => do
    let fl := ctx.lineWrapper.flush
    let ctx := { ctx with lineWrapper := fl.1, buf := ctx.buf ++ fl.2 }
    let ctx ← traverseChildrenNP ctx children
    let ctx := if !ctx.justClosedDiv then ctx.emit "\n" else ctx
    pure { ctx with justClosedDiv := true }
  | .li => do
    let ctx := if !ctx.options.TextOnly then ctx.emit "- " else ctx
    let ctx ← traverseChildrenNP ctx children
    pure (ctx.emit "\n")
  | .b | .strong => do
    let subCtx := { ctx.sub with endsWithSpace := true }
    let subCtx ← traverseChildrenNP subCtx children
    let str := subCtx.buf
    if ctx.options.TextOnly then pure (ctx.emit str)
    else pure (ctx.emit ("*" ++ str ++ "*"))
  | .a => do
    let linkText :=
      match children with
      | [Node.text s] => s
      | _ => ""
    let imgAlt : Option String :=
      match children with
      | [Node.element .img imgAttrs _] => some (getAttrVal imgAttrs "alt")
      | _ => none
    let ctx ←
      match imgAlt with
      | some altText =>
        if altText ≠ "" then pure (ctx.emit altText) else pure ctx
      | none => traverseChildrenNP ctx children
    let attrVal := getAttrVal attrs "href"
    let hrefLink :=
      if attrVal ≠ "" then
        let attrVal := TextifyTraverseContext.normalizeHrefLink attrVal
        if (!ctx.options.OmitLinks && attrVal ≠ "" && linkText ≠ attrVal)
            || !ctx.options.TextOnly then
          "(" ++ attrVal ++ ")"
        else ""
      else ""
    pure (ctx.emit hrefLink)
  | .p | .ul => paragraphHandlerNP ctx children
  | .table =>
    let ctx := { ctx with tableLevel := ctx.tableLevel + 1 }
    let r :=
      if ctx.options.PrettyTables then handleTableElementNP ctx .table attrs children
      else paragraphHandlerNP ctx children
    r.map (fun c => { c with tableLevel := c.tableLevel - 1 })
  | .tfoot | .th | .tr | .td =>
    if ctx.options.PrettyTables then handleTableElementNP ctx tag attrs children
    else traverseChildrenNP ctx children
  | .pre => do
    let ctx := { ctx with isPre := true }
    let ctx ← traverseChildrenNP ctx children
    pure { ctx with isPre := false }
  | .style | .script | .head => some ctx
  | _ => traverseChildrenNP ctx children
termination_by (sizeOf children, 3)

/-- `paragraphHandler` with the prefix assignments removed. -/
def paragraphHandlerNP (ctx : TextifyTraverseContext) (children : List Node) :
    Option TextifyTraverseContext := do
  let ctx := ctx.emit "\n\n"
  let ctx ← traverseChildrenNP ctx children
  pure (ctx.emit "\n\n")
termination_by (sizeOf children, 1)

/-- `handleTableElement` with the prefix assignments removed. -/
def handleTableElementNP (ctx : TextifyTraverseContext) (tag : Atom)
    (attrs : List (String × String)) (children : List Node) :
    Option TextifyTraverseContext :=
  if !ctx.options.PrettyTables then none
  else
    match tag with
    | .table => do
      let ctx := ctx.emit "\n\n"
      let ctx := { ctx with tableCtx := TableTraverseContext.init }
      let ctx ← traverseChildrenNP ctx children
      let outStr := tablewriterRender ctx.tableCtx.header ctx.tableCtx.body
        ctx.tableCtx.footer
      let ctx := ctx.emit outStr
      pure (ctx.emit "\n\n")
    | .tfoot => do
      let ctx := { ctx with tableCtx := { ctx.tableCtx with isInFooter := true } }
      let ctx ← traverseChildrenNP ctx children
      pure { ctx with tableCtx := { ctx.tableCtx with isInFooter := false } }
    | .tr => do
      let ctx := { ctx with tableCtx := { ctx.tableCtx with body := ctx.tableCtx.body ++ [[]] } }
      let ctx ← traverseChildrenNP ctx children
      pure { ctx with tableCtx := { ctx.tableCtx with tmpRow := ctx.tableCtx.tmpRow + 1 } }
    | .th => do
      let res ← renderEachChildNP ctx.options children
      pure { ctx with tableCtx := { ctx.tableCtx with header := ctx.tableCtx.header ++ [res] } }
    | .td => do
      let res ← renderEachChildNP ctx.options children
      if ctx.tableCtx.isInFooter then
        pure { ctx with tableCtx := { ctx.tableCtx with footer := ctx.tableCtx.footer ++ [res] } }
      else
        if h : ctx.tableCtx.tmpRow < ctx.tableCtx.body.length then
          pure { ctx with tableCtx := { ctx.tableCtx with
            body := ctx.tableCtx.body.set ctx.tableCtx.tmpRow
              ((ctx.tableCtx.body.get ⟨ctx.tableCtx.tmpRow, h⟩) ++ [res]) } }
        else none
    | _ => some ctx
termination_by (sizeOf children, 2)

/-- `traverseChildren` with the prefix assignments removed. -/
def traverseChildrenNP (ctx : TextifyTraverseContext) :
    List Node → Option TextifyTraverseContext
  | [] => some ctx
  | c :: cs => do
    let ctx ← traverseNP ctx c
    traverseChildrenNP ctx cs
termination_by l => (sizeOf l, 0)

/-- `renderEachChild` with the prefix assignments removed. -/
def renderEachChildNP (opts : Options) : List Node → Option String
  | [] => some ""
  | [c] => do
    let sub ← traverseNP (initialContext opts) c
    pure (finalizeOutput sub.buf)
  | c :: c2 :: cs => do
    let sub ← traverseNP (initialContext opts) c
    let r ← renderEachChildNP opts (c2 :: cs)
    pure (finalizeOutput sub.buf ++ "\n" ++ r)
termination_by l => (sizeOf l, 0)

end

/-- `FromHTMLNode` over the prefix-free traversal. -/
def FromHTMLNodeNP (node : Node) (opts : Options := {}) : Option String := do
  let ctx ← traverseNP (initialContext opts) node
  pure (finalizeOutput ctx.buf)

/-! ## Spec-side definitions

Definitions written from the claims' wording, to be compared against the
embedded code. -/

/-- Spec-side (claim C6): the string contains a newline immediately followed
by a space character. -/
def containsNlSpace : List Char → Bool
  | '\n' :: ' ' :: _ => true
  | _ :: rest => containsNlSpace rest
  | [] => false

/-- Spec-side (claim C6): no run of three or more consecutive newlines;
`run` is the number of newlines immediately preceding the scan point. -/
def nlRunsAtMostTwo : List Char → Nat → Bool
  | [], _ => true
  | c :: cs, run =>
    if c = '\n' then decide (run + 1 ≤ 2) && nlRunsAtMostTwo cs (run + 1)
    else nlRunsAtMostTwo cs 0

/-- Spec-side (claim C6): the string has no leading and no trailing
whitespace character. -/
def trimmedAtEnds (l : List Char) : Bool :=
  (match l.head? with
   | some c => !goIsSpace c
   | none => true) &&
  (match l.getLast? with
   | some c => !goIsSpace c
   | none => true)

/-- Spec-side (claim C4): the maximum display width over the lines of the
pre-rendered heading text, each line trimmed of trailing whitespace. -/
def specDividerLen (str : String) : Nat :=
  ((splitNl str).map (fun line => stringWidth (goTrimRightSpace line))).foldr max 0

/-- Spec-side (claim C4): a divider of `*` (h1) or `-` (h2/h3) of exactly
the spec divider length. -/
def specDivider (tag : Atom) (str : String) : String :=
  String.mk (List.replicate (specDividerLen str) (if tag = .h1 then '*' else '-'))

/-- Emit a list of strings in order (used to state the heading emission
sequence). -/
def emitAll (ctx : TextifyTraverseContext) (l : List String) :
    TextifyTraverseContext :=
  l.foldl TextifyTraverseContext.emit ctx

/-- Spec-side (claim C7): greedy wrapping of a word list starting from
column count `col` with `pend` pending spaces: a word is moved to a new line
exactly when the line is non-empty and the column count plus the pending
space plus the word's display width would exceed the width; otherwise it is
appended after the pending space, and exactly one space becomes pending
between consecutive words. -/
def specWrap (width : Nat) : List String → Nat → Nat → String
  | [], _, _ => ""
  | w :: ws, col, pend =>
    let wd := stringWidth w
    if col > 0 && col + pend + wd > width then
      "\n" ++ w ++ specWrap width ws wd 1
    else
      String.mk (List.replicate pend ' ') ++ w ++ specWrap width ws (col + pend + wd) 1

/-- A call against the line wrapper, for stating wrapper invariants over
arbitrary usage (claim C9). -/
inductive WrapOp where
  | write (text : String)
  | flush
  | flushN (k : Nat)

/-- Run a sequence of wrapper calls from a given state, accumulating the
written output. -/
def runWrapOps (l : LineWrapper) (out : String) : List WrapOp → LineWrapper × String
  | [] => (l, out)
  | op :: ops =>
    match op with
    | .write t =>
      let r := l.write t
      runWrapOps r.1 (out ++ r.2) ops
    | .flush =>
      let r := l.flush
      runWrapOps r.1 (out ++ r.2) ops
    | .flushN k =>
      let r := l.flushN k
      runWrapOps r.1 (out ++ r.2) ops

/-- The last line of a buffer (the part after the last newline). -/
def lastLine (s : String) : String := (splitNl s).getLastD ""

/-- Spec-side (claim C9): the wrapper invariant tying the wrapper state to
the output written so far: every line written (the current partial line
included) has display width at most the configured width or is a single
word; the counter `n` is the display width of the current line; at most one
space is pending, and only on a non-empty line. -/
structure WrapInv (w : Nat) (st : LineWrapper × String) : Prop where
  lines_good : ∀ line ∈ splitNl st.2, stringWidth line ≤ w ∨ goFields line = [line]
  last_width : stringWidth (lastLine st.2) = st.1.n
  pend_le : st.1.pendSpace ≤ 1
  pend_pos : st.1.pendSpace = 1 → 0 < st.1.n
  width_eq : st.1.width = w

/-- All context fields except the blockquote line prefix (Go field
`prefix`); two contexts with equal erasures differ at most in the prefix. -/
structure ErasedCtx where
  buf : String
  tableCtx : TableTraverseContext
  options : Options
  endsWithSpace : Bool
  justClosedDiv : Bool
  blockquoteLevel : Nat
  tableLevel : Nat
  lineWrapper : LineWrapper
  isPre : Bool
  deriving DecidableEq, Repr

/-- Forget the line prefix of a context. -/
def eraseCtx (c : TextifyTraverseContext) : ErasedCtx :=
  ⟨c.buf, c.tableCtx, c.options, c.endsWithSpace, c.justClosedDiv,
   c.blockquoteLevel, c.tableLevel, c.lineWrapper, c.isPre⟩

/-- Forget the line prefix of an optional traversal result. -/
def optErase (r : Option TextifyTraverseContext) : Option ErasedCtx :=
  r.map eraseCtx

/-! ### Structured tables (claim C5) -/

/-- Spec-side (claim C5): a table cell is a header (`th`) or data (`td`)
cell with text content. -/
inductive CellKind where
  | th | td
  deriving DecidableEq, Repr

/-- Spec-side (claim C5): cell description. -/
structure SpecCell where
  kind : CellKind
  content : String
  deriving DecidableEq, Repr

/-- Spec-side (claim C5): a table section is a `thead`, `tbody` or `tfoot`
containing rows of cells. -/
inductive SectionKind where
  | thead | tbody | tfoot
  deriving DecidableEq, Repr

/-- Spec-side (claim C5): section description; each row is a cell list. -/
structure SpecSection where
  kind : SectionKind
  rows : List (List SpecCell)
  deriving DecidableEq, Repr

/-- The tag of a section kind. -/
def sectionAtom : SectionKind → Atom
  | .thead => .thead
  | .tbody => .tbody
  | .tfoot => .tfoot

/-- The tag of a cell kind. -/
def cellAtom : CellKind → Atom
  | .th => .th
  | .td => .td

/-- The node of a cell: element with a single text child. -/
def cellNode (c : SpecCell) : Node :=
  .element (cellAtom c.kind) [] [.text c.content]

/-- The node of a row: `tr` containing the cells. -/
def rowNode (r : List SpecCell) : Node :=
  .element .tr [] (r.map cellNode)

/-- The node of a section: `thead`/`tbody`/`tfoot` containing the rows. -/
def sectionNode (s : SpecSection) : Node :=
  .element (sectionAtom s.kind) [] (s.rows.map rowNode)

/-- The node of a structured table. -/
def tableNode (secs : List SpecSection) : Node :=
  .element .table [] (secs.map sectionNode)

/-- Whether a cell is a header cell. -/
def isTh (c : SpecCell) : Bool :=
  match c.kind with
  | .th => true
  | .td => false

/-- The text `renderEachChild` produces for a cell whose only child is a
text node: a fresh top-level render of the text node. -/
def cellText (opts : Options) (s : String) : String :=
  finalizeOutput (TextifyTraverseContext.emit (initialContext opts) (goTrimSpace s)).buf

/-- Spec-side (claim C5): every `th` cell, from any row of any section, in
traversal order, as one flat header list. -/
def specHeaderCells (opts : Options) (secs : List SpecSection) : List String :=
  (secs.map (fun sec =>
    (sec.rows.map (fun r =>
      (r.filter isTh).map (fun c => cellText opts c.content))).flatten)).flatten

/-- Spec-side (claim C5): one body row per `tr`, holding the row's `td`
cells, except that rows inside `tfoot` contribute empty body rows. -/
def specBodyRows (opts : Options) (secs : List SpecSection) : List (List String) :=
  (secs.map (fun sec =>
    sec.rows.map (fun r =>
      if sec.kind = .tfoot then []
      else (r.filter (fun c => !isTh c)).map (fun c => cellText opts c.content)))).flatten

/-- Spec-side (claim C5): the `td` cells of `tfoot` sections, in order. -/
def specFooterCells (opts : Options) (secs : List SpecSection) : List String :=
  (secs.map (fun sec =>
    if sec.kind = .tfoot then
      (sec.rows.map (fun r =>
        (r.filter (fun c => !isTh c)).map (fun c => cellText opts c.content))).flatten
    else [])).flatten

/-- Spec-side (claim C3): whether `pat` occurs at the start of a list. -/
def startsSeq : List Char → List Char → Bool
  | [], _ => true
  | _ :: _, [] => false
  | p :: ps, c :: cs => (p = c) && startsSeq ps cs

/-- Spec-side (claim C3): whether `pat` occurs contiguously anywhere in a
list. -/
def containsSeq (pat : List Char) : List Char → Bool
  | [] => startsSeq pat []
  | c :: cs => startsSeq pat (c :: cs) || containsSeq pat cs

/-! ## Theorems -/

/-- Claim C1: the spec asserts that a link whose visible text equals its
(trimmed, `mailto:`-stripped) href never emits a parenthesized href in
default mode. The code disagrees: with default options (`TextOnly = false`)
the condition `(... && linkText != attrVal) || !ctx.options.TextOnly` holds
regardless of the duplicate check, so `<a href="http://x">http://x</a>`
renders as `http://x (http://x)` — contradicting the source's own comment
that the href is not printed when it matches the link element content. -/
theorem c1_duplicate_href_emitted :
    FromHTMLNode (.element .a [("href", "http://x")] [.text "http://x"]) {} =
      some "http://x (http://x)" := by
  simp [FromHTMLNode, traverse, handleElement, traverseChildren, initialContext,
    TextifyTraverseContext.emit, LineWrapper.write, LineWrapper.flush,
    LineWrapper.flushN, LineWrapper.writeWord, goFields, fieldsGo, goIsSpace,
    goTrimSpace, getAttrVal, TextifyTraverseContext.normalizeHrefLink,
    finalizeOutput, collapseNewlines, collapseGo, replaceNlSpace, stringWidth,
    runeWidth, isWideRune, TextifyTraverseContext.sub]

/-- Claim C2: the spec asserts that, with pretty tables enabled, a `td` with
no enclosing `tr` must not panic and must be dropped as a no-op, the render
still returning a result. The code disagrees: `handleTableElement` indexes
`body[tmpRow]` with `tmpRow = 0` while `body` is still empty, an
out-of-range panic (modelled as `none`), so the render returns no result. -/
theorem c2_td_without_tr_panics :
    FromHTMLNode (.element .table [] [.element .td [] [.text "x"]])
      { PrettyTables := true } = none := by
  simp [FromHTMLNode, traverse, handleElement, handleTableElement, renderEachChild,
    traverseChildren, initialContext,
    TextifyTraverseContext.emit, LineWrapper.write, LineWrapper.flush,
    LineWrapper.flushN, LineWrapper.writeWord, goFields, fieldsGo, goIsSpace,
    goTrimSpace, getAttrVal, finalizeOutput, collapseNewlines, collapseGo,
    replaceNlSpace, stringWidth, runeWidth, isWideRune, TableTraverseContext.init]

/-- Claim C3 counterexample: inside `pre`, internal whitespace is NOT
written through unmodified, and the preformatted flag is NOT restored to its
prior value after a nested `pre`. Rendering
`pre[ "a  b", pre["c"], " d " ]` with default options yields `a b c d`: the
double space of `"a  b"` does not survive (the wrapper splits and rejoins
words with single spaces), and `" d "`, still inside the outer `pre`, was
trimmed because the inner `pre` cleared the flag. -/
theorem c3_counterexample :
    FromHTMLNode (.element .pre [] [.text "a  b", .element .pre [] [.text "c"],
      .text " d "]) {} = some "a b c d" ∧
    containsSeq "a  b".toList "a b c d".toList = false := by
  constructor
  · simp [FromHTMLNode, traverse, handleElement, traverseChildren, initialContext,
      TextifyTraverseContext.emit, LineWrapper.write, LineWrapper.flush,
      LineWrapper.flushN, LineWrapper.writeWord, goFields, fieldsGo, goIsSpace,
      goTrimSpace, finalizeOutput, collapseNewlines, collapseGo,
      replaceNlSpace, stringWidth, runeWidth, isWideRune]
  · decide

/-- Claim C3 (amended): while inside a `pre` element, per-line trimming of
text nodes is suppressed — the text node's data reaches `emit` unmodified
(outside tables it is still word-split and reflowed by the line wrapper);
and after the `pre` subtree is traversed the preformatted flag is
unconditionally cleared to `false` (not restored to a prior value). -/
theorem c3_pre_amended :
    (∀ (ctx : TextifyTraverseContext) (s : String), ctx.isPre = true →
      traverse ctx (.text s) = some (ctx.emit s)) ∧
    (∀ (ctx : TextifyTraverseContext) (attrs : List (String × String))
      (children : List Node) (r : TextifyTraverseContext),
      handleElement ctx .pre attrs children = some r → r.isPre = false) := by
  constructor
  · intro ctx s h
    simp [traverse, h]
  · intro ctx attrs children r h
    simp only [handleElement] at h
    cases h2 : traverseChildren { ctx with justClosedDiv := false, isPre := true } children with
    | none => rw [h2] at h; simp at h
    | some c =>
      rw [h2] at h
      simp at h
      subst h
      rfl

/-- Witness for the amended claim C3, at a concrete preformatted text node
and a concrete empty `pre` element. -/
theorem c3_pre_amended_witness :
    traverse { isPre := true } (.text "a  b") =
      some (TextifyTraverseContext.emit { isPre := true } "a  b") ∧
    TextifyTraverseContext.isPre {} = false := by
  constructor
  · exact c3_pre_amended.1 { isPre := true } "a  b" rfl
  · exact c3_pre_amended.2 {} [] [] {} (by
      simp [handleElement, traverseChildren])

/-- Claim C6 counterexample: the returned string can contain a newline
immediately followed by a single space. The `"\n "` collapse is one
non-iterated pass, so a buffer containing newline + two spaces (reachable
because `emit` writes raw inside a table subtree and `pre` suppresses
trimming) leaves `"\n "` in the final output:
`table[ pre["a\n  b"] ]` renders as `"a\n b"`. -/
theorem c6_counterexample :
    FromHTMLNode (.element .table [] [.element .pre [] [.text "a\n  b"]]) {} =
      some "a\n b" ∧
    containsNlSpace "a\n b".toList = true := by
  constructor
  · simp [FromHTMLNode, traverse, handleElement, paragraphHandler, traverseChildren,
      initialContext,
      TextifyTraverseContext.emit, LineWrapper.write, LineWrapper.flush,
      LineWrapper.flushN, LineWrapper.writeWord, goFields, fieldsGo, goIsSpace,
      goTrimSpace, finalizeOutput, collapseNewlines, collapseGo,
      replaceNlSpace, stringWidth, runeWidth, isWideRune]
  · decide

/-- Claim C10: top-level rendering is deterministic (equal inputs give equal
results — immediate here since the embedding is a pure function of the node
tree and options, matching the Go code's freedom from shared mutable
globals), and the re-entrant per-cell renders (`renderEachChild`, which
builds a fresh `initialContext` per child) leave the enclosing render's
buffer, wrapper and counters untouched: handling a `th`/`td` cell only
appends the rendered cell to the table accumulator. -/
theorem c10_determinism_isolation :
    (∀ (node : Node) (opts : Options), FromHTMLNode node opts = FromHTMLNode node opts) ∧
    (∀ (ctx : TextifyTraverseContext) (attrs : List (String × String))
        (children : List Node) (r : TextifyTraverseContext),
      handleTableElement ctx .th attrs children = some r →
        r.buf = ctx.buf ∧ r.lineWrapper = ctx.lineWrapper ∧
        r.blockquoteLevel = ctx.blockquoteLevel ∧ r.tableLevel = ctx.tableLevel ∧
        r.options = ctx.options ∧
        ∃ res, renderEachChild ctx.options children = some res ∧
          r.tableCtx = { ctx.tableCtx with header := ctx.tableCtx.header ++ [res] }) ∧
    (∀ (ctx : TextifyTraverseContext) (attrs : List (String × String))
        (children : List Node) (r : TextifyTraverseContext),
      handleTableElement ctx .td attrs children = some r →
        r.buf = ctx.buf ∧ r.lineWrapper = ctx.lineWrapper ∧
        r.blockquoteLevel = ctx.blockquoteLevel ∧ r.tableLevel = ctx.tableLevel ∧
        r.options = ctx.options ∧
        ∃ res, renderEachChild ctx.options children = some res ∧
          (r.tableCtx = { ctx.tableCtx with footer := ctx.tableCtx.footer ++ [res] } ∨
           ∃ hlt : ctx.tableCtx.tmpRow < ctx.tableCtx.body.length,
             r.tableCtx = { ctx.tableCtx with
               body := ctx.tableCtx.body.set ctx.tableCtx.tmpRow
                 ((ctx.tableCtx.body.get ⟨ctx.tableCtx.tmpRow, hlt⟩) ++ [res]) })) := by
  refine ⟨fun _ _ => rfl, ?_, ?_⟩
  · intro ctx attrs children r h
    simp only [handleTableElement] at h
    split at h
    · exact absurd h (by simp)
    · cases hres : renderEachChild ctx.options children with
      | none => rw [hres] at h; simp at h
      | some res =>
        rw [hres] at h
        simp at h
        subst h
        exact ⟨rfl, rfl, rfl, rfl, rfl, res, rfl, rfl⟩
  · intro ctx attrs children r h
    simp only [handleTableElement] at h
    split at h
    · exact absurd h (by simp)
    · cases hres : renderEachChild ctx.options children with
      | none => rw [hres] at h; simp at h
      | some res =>
        rw [hres] at h
        cases hfoot : ctx.tableCtx.isInFooter with
        | true =>
          simp [hfoot] at h
          subst h
          exact ⟨rfl, rfl, rfl, rfl, rfl, res, rfl, Or.inl (by simp [hfoot])⟩
        | false =>
          simp [hfoot] at h
          obtain ⟨hlt, h⟩ := h
          subst h
          exact ⟨rfl, rfl, rfl, rfl, rfl, res, rfl,
            Or.inr ⟨hlt, by simp [hfoot]⟩⟩

/-- Witness for claim C10 at a concrete `th` cell: the enclosing context is
unchanged except for the header append. -/
theorem c10_witness :
    TextifyTraverseContext.buf
        { options := { PrettyTables := true },
          tableCtx := { header := ["w"] } } =
      TextifyTraverseContext.buf { options := { PrettyTables := true } } ∧
    TextifyTraverseContext.lineWrapper
        { options := { PrettyTables := true },
          tableCtx := { header := ["w"] } } =
      TextifyTraverseContext.lineWrapper { options := { PrettyTables := true } } ∧
    (0 : Nat) = 0 ∧ (0 : Nat) = 0 ∧
    Options.mk true false false = Options.mk true false false ∧
    ∃ res, renderEachChild { PrettyTables := true } [.text "w"] = some res ∧
      TableTraverseContext.mk ["w"] [] [] 0 false =
        { TableTraverseContext.mk [] [] [] 0 false with header := [] ++ [res] } := by
  have h := c10_determinism_isolation.2.1
    { options := { PrettyTables := true } } [] [.text "w"]
    { options := { PrettyTables := true }, tableCtx := { header := ["w"] } }
    (by simp [handleTableElement, renderEachChild, traverse, initialContext,
      TextifyTraverseContext.emit, LineWrapper.write, LineWrapper.flush,
      LineWrapper.flushN, LineWrapper.writeWord, goFields, fieldsGo, goIsSpace,
      goTrimSpace, finalizeOutput, collapseNewlines, collapseGo,
      replaceNlSpace])
  exact h

/-- Folding the max-update loop of the heading divider computation equals
taking the maximum of the mapped values. -/
theorem foldl_if_max (f : String → Nat) :
    ∀ (l : List String) (a : Nat),
      l.foldl (fun acc line => if f line > acc then f line else acc) a =
        max a ((l.map f).foldr max 0) := by
  intro l
  induction l with
  | nil => intro a; simp
  | cons x xs ih =>
    intro a
    simp only [List.foldl_cons, List.map_cons, List.foldr_cons]
    rw [ih]
    have hx : (if f x > a then f x else a) = max a (f x) := by
      split <;> omega
    rw [hx]
    omega

/-- The divider-length loop of `handleElement` computes exactly the
spec-side divider length: the maximum display width over the heading's
lines after right-trimming each line. -/
theorem dividerLen_eq_spec (str : String) :
    (splitNl str).foldl (fun acc line =>
      let line2 := goTrimRightSpace line
      let lineLen := stringWidth line2
      if lineLen > acc then lineLen else acc) 0 = specDividerLen str := by
  have h := foldl_if_max (fun line => stringWidth (goTrimRightSpace line)) (splitNl str) 0
  simpa [specDividerLen] using h

/-- Claim C4: for `h1`/`h2`/`h3` with `TextOnly = false`, the heading is
pre-rendered into a sub-context, and the element emits: a blank line; for
`h1` only, a `*`-divider line above; the heading text; a newline; the
divider below; a blank line — where the divider (of `*` for `h1`, `-` for
`h2`/`h3`) has length exactly the maximum display width (CJK-wide runes
counting 2) over the pre-rendered lines after right-trimming each. -/
theorem c4_heading_divider (ctx : TextifyTraverseContext)
    (attrs : List (String × String)) (children : List Node) (tag : Atom)
    (htag : tag = .h1 ∨ tag = .h2 ∨ tag = .h3)
    (hto : ctx.options.TextOnly = false) :
    handleElement ctx tag attrs children =
      Option.map (fun subCtx =>
        emitAll { ctx with justClosedDiv := false }
          (["\n\n"] ++
            (if tag = .h1 then [specDivider tag subCtx.buf, "\n"] else []) ++
            [subCtx.buf, "\n", specDivider tag subCtx.buf, "\n\n"]))
        (traverseChildren ctx.sub children) := by
  have hsubeq : TextifyTraverseContext.sub { ctx with justClosedDiv := false } =
      TextifyTraverseContext.sub ctx := rfl
  rcases htag with rfl | rfl | rfl
  · cases hsub : traverseChildren ctx.sub children with
    | none => simp [handleElement, hsubeq, hsub]
    | some subCtx =>
      simp [handleElement, hsubeq, hsub, hto, emitAll, specDivider,
        dividerLen_eq_spec]
  · cases hsub : traverseChildren ctx.sub children with
    | none => simp [handleElement, hsubeq, hsub]
    | some subCtx =>
      simp [handleElement, hsubeq, hsub, hto, emitAll, specDivider,
        dividerLen_eq_spec]
  · cases hsub : traverseChildren ctx.sub children with
    | none => simp [handleElement, hsubeq, hsub]
    | some subCtx =>
      simp [handleElement, hsubeq, hsub, hto, emitAll, specDivider,
        dividerLen_eq_spec]

/-- Witness for claim C4 at a concrete `h2` heading with default options. -/
theorem c4_heading_divider_witness :
    handleElement (initialContext {}) .h2 [] [.text "Hi"] =
      Option.map (fun subCtx =>
        emitAll { initialContext {} with justClosedDiv := false }
          (["\n\n"] ++
            (if Atom.h2 = Atom.h1 then [specDivider .h2 subCtx.buf, "\n"] else []) ++
            [subCtx.buf, "\n", specDivider .h2 subCtx.buf, "\n\n"]))
        (traverseChildren (initialContext {}).sub [.text "Hi"]) :=
  c4_heading_divider (initialContext {}) [] [.text "Hi"] .h2
    (Or.inr (Or.inl rfl)) rfl

theorem string_mk_nil : String.mk ([] : List Char) = "" := rfl

/-- The word loop of `lineWrapper.write` writes exactly the spec-side
greedy layout: each word is preceded by a newline exactly when the line is
non-empty and the column count plus pending space plus word width would
exceed the width, and by the pending single space otherwise. -/
theorem writeWord_fold_spec :
    ∀ (ws : List String) (l : LineWrapper) (out : String),
      (ws.foldl LineWrapper.writeWord (l, out)).2 =
        out ++ specWrap l.width ws l.n l.pendSpace := by
  intro ws
  induction ws with
  | nil => intro l out; simp [specWrap]
  | cons w ws ih =>
    intro l out
    simp only [List.foldl_cons]
    by_cases h1 : l.n > 0
    · by_cases h2 : l.n + l.pendSpace + stringWidth w > l.width
      · simp [LineWrapper.writeWord, specWrap, h1, h2, ih, string_mk_nil,
          String.append_assoc, String.empty_append, String.append_empty]
      · simp [LineWrapper.writeWord, specWrap, h1, h2, ih, string_mk_nil,
          String.append_assoc, String.empty_append, String.append_empty]
    · simp [LineWrapper.writeWord, specWrap, h1, ih, string_mk_nil,
        String.append_assoc, String.empty_append, String.append_empty]

theorem flushN_width (l : LineWrapper) (k : Nat) : ((l.flushN k).1).width = l.width := by
  simp only [LineWrapper.flushN]
  split
  · rfl
  · split <;> rfl

theorem flushN_n_zero (l : LineWrapper) (k : Nat) (h : l.n = 0) :
    ((l.flushN k).1).n = 0 := by
  simp only [LineWrapper.flushN]
  split
  · exact h
  · split
    · exact h
    · rfl

/-- Claim C7: `FromHTMLNode` configures the wrapper width to 78 columns;
the word loop of `write` realizes exactly the spec-side greedy layout
(words are the whitespace-delimited fields of the text, joined by exactly
one pending space, a word moving to a new line exactly when the line is
non-empty and the column count plus the pending space plus the word's
display width — CJK-wide runes counting 2 — would exceed the width); and a
whole `write` call equals that layout, preceded by the wrapper's
paragraph-separating flush exactly when the wrapper is at column 0 and has
printed before. -/
theorem c7_write_greedy_wrap :
    (∀ opts : Options, (initialContext opts).lineWrapper.width = 78) ∧
    (∀ (l : LineWrapper) (ws : List String) (out : String),
      (ws.foldl LineWrapper.writeWord (l, out)).2 =
        out ++ specWrap l.width ws l.n l.pendSpace) ∧
    (∀ (l : LineWrapper) (text : String),
      (l.write text).2 =
        if l.n = 0 ∧ l.printed = true then
          (l.flush).2 ++ specWrap l.width (goFields text) l.n ((l.flush).1).pendSpace
        else specWrap l.width (goFields text) l.n l.pendSpace) := by
  refine ⟨fun _ => rfl, fun l ws out => writeWord_fold_spec ws l out, ?_⟩
  intro l text
  by_cases hc : l.n = 0 ∧ l.printed = true
  · obtain ⟨hn, hp⟩ := hc
    simp [LineWrapper.write, hn, hp, writeWord_fold_spec, LineWrapper.flush,
      flushN_width, flushN_n_zero]
  · simp only [LineWrapper.write]
    rw [if_neg (by simpa [Bool.and_eq_true, decide_eq_true_eq] using hc)]
    simp [writeWord_fold_spec, String.empty_append,
      if_neg hc]


theorem splitNlGo_ne_nil : ∀ (l cur : List Char), splitNlGo l cur ≠ []
  | [], cur => by simp [splitNlGo]
  | c :: cs, cur => by
    simp only [splitNlGo]
    split
    · simp
    · exact splitNlGo_ne_nil cs (c :: cur)

theorem dropLast_cons_ne {α : Type} (a : α) (l : List α) (h : l ≠ []) :
    (a :: l).dropLast = a :: l.dropLast := by
  cases l with
  | nil => exact absurd rfl h
  | cons b t => rfl

theorem getLastD_cons_ne {α : Type} (a d : α) (l : List α) (h : l ≠ []) :
    (a :: l).getLastD d = l.getLastD d := by
  cases l with
  | nil => exact absurd rfl h
  | cons b t => rfl

theorem splitNlGo_append : ∀ (l1 : List Char) (cur l2 : List Char),
    splitNlGo (l1 ++ l2) cur =
      (splitNlGo l1 cur).dropLast ++
        splitNlGo l2 ((splitNlGo l1 cur).getLastD []).reverse
  | [], cur, l2 => by simp [splitNlGo]
  | c :: cs, cur, l2 => by
    by_cases hc : c = '\n'
    · subst hc
      simp only [List.cons_append, splitNlGo, reduceIte, List.append_eq]
      rw [splitNlGo_append cs [] l2]
      rw [dropLast_cons_ne _ _ (splitNlGo_ne_nil cs []),
        getLastD_cons_ne _ _ _ (splitNlGo_ne_nil cs [])]
      simp
    · simp only [List.cons_append, splitNlGo, if_neg hc, List.append_eq]
      exact splitNlGo_append cs (c :: cur) l2

theorem splitNlGo_no_nl : ∀ (l cur : List Char), (∀ c ∈ l, c ≠ '\n') →
    splitNlGo l cur = [cur.reverse ++ l]
  | [], cur, _ => by simp [splitNlGo]
  | c :: cs, cur, h => by
    have hc : c ≠ '\n' := h c (by simp)
    simp only [splitNlGo, if_neg hc]
    rw [splitNlGo_no_nl cs (c :: cur) (fun x hx => h x (by simp [hx]))]
    simp

theorem string_mk_nil2 : String.mk ([] : List Char) = "" := rfl

theorem string_mk_append (a b : List Char) :
    String.mk (a ++ b) = String.mk a ++ String.mk b := rfl

theorem string_mk_data (s : String) : String.mk s.data = s := rfl

theorem map_dropLast {α β : Type} (f : α → β) (l : List α) :
    (l.map f).dropLast = l.dropLast.map f :=
  (List.map_dropLast f l).symm

theorem getLastD_map {α β : Type} (f : α → β) (d : α) (l : List α) :
    (l.map f).getLastD (f d) = f (l.getLastD d) :=
  List.getLastD_map f l d

theorem dropLast_append_getLastD {α : Type} (d : α) :
    ∀ l : List α, l ≠ [] → l.dropLast ++ [l.getLastD d] = l
  | [], h => absurd rfl h
  | [a], _ => rfl
  | a :: b :: t, _ => by
    rw [dropLast_cons_ne _ _ (by simp), getLastD_cons_ne _ _ _ (by simp)]
    have := dropLast_append_getLastD d (b :: t) (by simp)
    simp only [List.cons_append, this]

theorem splitNl_data (s : String) :
    splitNl s = (splitNlGo s.data []).map String.mk := rfl

theorem lastLine_eq (s : String) :
    lastLine s = String.mk ((splitNlGo s.data []).getLastD []) := by
  have h := getLastD_map String.mk [] (splitNlGo s.data [])
  simp only [lastLine, splitNl_data]
  rw [show (String.mk [] : String) = "" from rfl] at h
  exact h

theorem splitNl_append_no_nl (s w : String) (h : ∀ c ∈ w.data, c ≠ '\n') :
    splitNl (s ++ w) = (splitNl s).dropLast ++ [lastLine s ++ w] := by
  rw [show splitNl (s ++ w) = (splitNlGo (s.data ++ w.data) []).map String.mk from by
      rw [splitNl_data, String.data_append]]
  rw [show splitNl s = (splitNlGo s.data []).map String.mk from rfl]
  rw [splitNlGo_append, splitNlGo_no_nl w.data _ h, List.map_append,
    map_dropLast, lastLine_eq]
  simp [string_mk_append, string_mk_data]

theorem splitNl_append_nl (s : String) :
    splitNl (s ++ "\n") = splitNl s ++ [""] := by
  rw [splitNl_data, String.data_append, splitNlGo_append]
  show ((splitNlGo s.data []).dropLast ++
    splitNlGo ['\n'] ((splitNlGo s.data []).getLastD []).reverse).map String.mk = _
  rw [show ∀ cur, splitNlGo ['\n'] cur = [cur.reverse, []] from fun cur => rfl]
  rw [List.reverse_reverse]
  rw [show (splitNlGo s.data []).dropLast ++
      [(splitNlGo s.data []).getLastD [], []] =
    ((splitNlGo s.data []).dropLast ++ [(splitNlGo s.data []).getLastD []]) ++ [[]]
    from by simp]
  rw [dropLast_append_getLastD [] _ (splitNlGo_ne_nil s.data [])]
  simp [splitNl_data, string_mk_nil2]

theorem splitNl_append_replicate_nl (s : String) :
    ∀ m : Nat, splitNl (s ++ String.mk (List.replicate m '\n')) =
      splitNl s ++ List.replicate m ""
  | 0 => by simp [string_mk_nil2]
  | m + 1 => by
    rw [List.replicate_succ', string_mk_append, ← String.append_assoc]
    rw [show String.mk ['\n'] = "\n" from rfl]
    rw [splitNl_append_nl, splitNl_append_replicate_nl s m]
    simp [List.replicate_succ']

theorem stringWidth_append (a b : String) :
    stringWidth (a ++ b) = stringWidth a + stringWidth b := by
  simp [stringWidth, String.toList, String.data_append]

theorem runeWidth_pos (c : Char) : 1 ≤ runeWidth c := by
  unfold runeWidth
  split <;> omega

theorem stringWidth_mk_replicate_space (p : Nat) :
    stringWidth (String.mk (List.replicate p ' ')) = p := by
  have h1 : runeWidth ' ' = 1 := rfl
  simp [stringWidth, String.toList, List.map_replicate, h1, List.sum_replicate]

theorem stringWidth_eq_zero (s : String) (h : stringWidth s = 0) : s = "" := by
  cases hd : s.data with
  | nil =>
    have h2 : s = String.mk s.data := rfl
    rw [h2, hd]
  | cons c t =>
    exfalso
    have hw : stringWidth s = runeWidth c + (t.map runeWidth).sum := by
      simp [stringWidth, String.toList, hd]
    have := runeWidth_pos c
    omega

theorem stringWidth_pos (s : String) (h : s ≠ "") : 0 < stringWidth s := by
  by_contra hc
  exact h (stringWidth_eq_zero s (by omega))

theorem fieldsGo_words : ∀ (l cur : List Char),
    (∀ c ∈ cur, goIsSpace c = false) →
    ∀ w ∈ fieldsGo l cur, w ≠ [] ∧ ∀ c ∈ w, goIsSpace c = false
  | [], cur, hcur => by
    simp only [fieldsGo]
    split
    · simp
    · intro w hw
      simp only [List.mem_singleton] at hw
      subst hw
      constructor
      · simp only [ne_eq, List.reverse_eq_nil_iff]
        intro hnil
        simp [hnil] at *
      · intro c hc
        exact hcur c (List.mem_reverse.mp hc)
  | a :: l, cur, hcur => by
    simp only [fieldsGo]
    by_cases hsp : goIsSpace a = true
    · rw [if_pos hsp]
      split
      · exact fieldsGo_words l [] (by simp)
      · intro w hw
        rcases List.mem_cons.mp hw with hw1 | hw2
        · subst hw1
          refine ⟨?_, fun c hc => hcur c (List.mem_reverse.mp hc)⟩
          simp only [ne_eq, List.reverse_eq_nil_iff]
          intro hnil
          simp [hnil] at *
        · exact fieldsGo_words l [] (by simp) w hw2
    · rw [if_neg hsp]
      refine fieldsGo_words l (a :: cur) ?_
      intro c hc
      rcases List.mem_cons.mp hc with h1 | h2
      · subst h1
        simpa using hsp
      · exact hcur c h2

theorem goFields_words (text f : String) (hf : f ∈ goFields text) :
    f ≠ "" ∧ ∀ c ∈ f.data, goIsSpace c = false := by
  simp only [goFields, List.mem_map] at hf
  obtain ⟨w, hw, rfl⟩ := hf
  obtain ⟨hne, hns⟩ := fieldsGo_words text.toList [] (by simp) w hw
  constructor
  · intro hmk
    exact hne (by simpa [String.ext_iff] using hmk)
  · exact hns

theorem fieldsGo_all_nonspace : ∀ (l cur : List Char),
    (∀ c ∈ l, goIsSpace c = false) →
    fieldsGo l cur = if (cur.reverse ++ l).isEmpty then [] else [cur.reverse ++ l]
  | [], cur, _ => by simp [fieldsGo, List.isEmpty_iff]
  | a :: l, cur, h => by
    have ha : goIsSpace a = false := h a (by simp)
    simp only [fieldsGo, ha, Bool.false_eq_true, if_false]
    rw [fieldsGo_all_nonspace l (a :: cur) (fun c hc => h c (by simp [hc]))]
    simp

theorem word_goFields_self (f : String) (h1 : f ≠ "")
    (h2 : ∀ c ∈ f.data, goIsSpace c = false) : goFields f = [f] := by
  simp only [goFields]
  rw [show f.toList = f.data from rfl, fieldsGo_all_nonspace f.data [] h2]
  have : f.data.isEmpty = false := by
    cases hd : f.data with
    | nil => exact absurd (by simpa [String.ext_iff] using hd) h1
    | cons c t => rfl
  simp [this, string_mk_data]

theorem getLastD_append_ne {α : Type} (d : α) :
    ∀ (l1 l2 : List α), l2 ≠ [] → (l1 ++ l2).getLastD d = l2.getLastD d
  | [], l2, _ => rfl
  | a :: t, l2, h => by
    rw [List.cons_append, getLastD_cons_ne _ _ _ (by simp [h]),
      getLastD_append_ne d t l2 h]

theorem getLastD_replicate {α : Type} (x d : α) :
    ∀ m : Nat, 1 ≤ m → (List.replicate m x).getLastD d = x
  | 0, h => by omega
  | 1, _ => rfl
  | m + 2, _ => by
    rw [List.replicate_succ, getLastD_cons_ne _ _ _ (by simp),
      getLastD_replicate x d (m + 1) (by omega)]

theorem wrapInv_flushN (w k : Nat) (l : LineWrapper) (out : String)
    (inv : WrapInv w (l, out)) :
    WrapInv w ((l.flushN k).1, out ++ (l.flushN k).2) := by
  simp only [LineWrapper.flushN]
  split
  · rw [String.append_empty]
    exact inv
  · split
    · rw [String.append_empty]
      exact inv
    · rename_i hm
      refine ⟨?_, ?_, ?_, ?_, inv.width_eq⟩
      · intro line hline
        rw [splitNl_append_replicate_nl] at hline
        rcases List.mem_append.mp hline with h1 | h2
        · exact inv.lines_good line h1
        · left
          rw [List.eq_of_mem_replicate h2]
          simp [stringWidth]
      · have hm1 : 1 ≤ (((k : Int) - (l.nl : Int)).toNat) := by omega
        rw [show lastLine (out ++ String.mk (List.replicate ((k : Int) - (l.nl : Int)).toNat '\n')) = "" from by
          rw [lastLine, splitNl_append_replicate_nl,
            getLastD_append_ne _ _ _ (by simp [List.replicate, Nat.pos_iff_ne_zero]; omega),
            getLastD_replicate _ _ _ hm1]]
        simp [stringWidth]
      · simp
      · simp

theorem writeWord_eq (l : LineWrapper) (out f : String) :
    LineWrapper.writeWord (l, out) f =
      if l.n > 0 ∧ l.n + l.pendSpace + stringWidth f > l.width then
        ({ l with n := stringWidth f, pendSpace := 1 }, (out ++ "\n") ++ f)
      else
        ({ l with n := l.n + l.pendSpace + stringWidth f, pendSpace := 1 },
         (out ++ String.mk (List.replicate l.pendSpace ' ')) ++ f) := by
  by_cases h : l.n > 0 ∧ l.n + l.pendSpace + stringWidth f > l.width
  · rw [if_pos h]
    simp [LineWrapper.writeWord, h.1, h.2, string_mk_nil2, String.append_empty]
  · rw [if_neg h]
    rcases Decidable.not_and_iff_or_not.mp h with h1 | h2
    · simp [LineWrapper.writeWord, h1]
    · simp [LineWrapper.writeWord, h2]

theorem wrapInv_writeWord (w : Nat) (l : LineWrapper) (out f : String)
    (inv : WrapInv w (l, out)) (hf1 : f ≠ "")
    (hf2 : ∀ c ∈ f.data, goIsSpace c = false) :
    WrapInv w (LineWrapper.writeWord (l, out) f) := by
  have hfnl : ∀ c ∈ f.data, c ≠ '\n' := by
    intro c hc heq
    have h2 := hf2 c hc
    rw [heq] at h2
    simp [goIsSpace] at h2
  have hwpos : 0 < stringWidth f := stringWidth_pos f hf1
  have hgood : stringWidth f ≤ w ∨ goFields f = [f] :=
    Or.inr (word_goFields_self f hf1 hf2)
  have hLW : stringWidth (lastLine out) = l.n := inv.last_width
  have hPL : l.pendSpace ≤ 1 := inv.pend_le
  have hPP : l.pendSpace = 1 → 0 < l.n := inv.pend_pos
  have hWE : l.width = w := inv.width_eq
  rw [writeWord_eq]
  split
  · rename_i hcond
    have hsplit : splitNl ((out ++ "\n") ++ f) = splitNl out ++ [f] := by
      rw [splitNl_append_no_nl _ _ hfnl, splitNl_append_nl]
      rw [show lastLine (out ++ "\n") = "" from by
        rw [lastLine, splitNl_append_nl, getLastD_append_ne _ _ _ (by simp)]
        rfl]
      simp [String.empty_append]
    refine ⟨?_, ?_, by simp, by simpa using hwpos, inv.width_eq⟩
    · intro line hline
      rw [hsplit] at hline
      rcases List.mem_append.mp hline with h1 | h2
      · exact inv.lines_good line h1
      · rw [List.mem_singleton.mp h2]
        exact hgood
    · show stringWidth (lastLine ((out ++ "\n") ++ f)) = stringWidth f
      rw [lastLine, hsplit, getLastD_append_ne _ _ _ (by simp)]
      rfl
  · rename_i hcond
    have hspnl : ∀ c ∈ (String.mk (List.replicate l.pendSpace ' ') ++ f).data,
        c ≠ '\n' := by
      intro c hc
      rw [String.data_append] at hc
      rcases List.mem_append.mp hc with h1 | h2
      · rw [List.eq_of_mem_replicate h1]
        decide
      · exact hfnl c h2
    have hsplit : splitNl ((out ++ String.mk (List.replicate l.pendSpace ' ')) ++ f) =
        (splitNl out).dropLast ++
          [lastLine out ++ (String.mk (List.replicate l.pendSpace ' ') ++ f)] := by
      rw [String.append_assoc]
      exact splitNl_append_no_nl _ _ hspnl
    have hlw : stringWidth (lastLine out ++ (String.mk (List.replicate l.pendSpace ' ') ++ f)) =
        l.n + l.pendSpace + stringWidth f := by
      rw [stringWidth_append, stringWidth_append, hLW,
        stringWidth_mk_replicate_space]
      omega
    refine ⟨?_, ?_, by simp,
      fun _ => Nat.lt_of_lt_of_le hwpos (Nat.le_add_left _ _), inv.width_eq⟩
    · intro line hline
      rw [hsplit] at hline
      rcases List.mem_append.mp hline with h1 | h2
      · exact inv.lines_good line (List.dropLast_subset _ h1)
      · rw [List.mem_singleton.mp h2]
        by_cases hn : l.n = 0
        · have hp : l.pendSpace = 0 := by
            rcases Nat.lt_or_ge l.pendSpace 1 with h | h
            · omega
            · have := hPP (by omega)
              omega
          have hlast : lastLine out = "" :=
            stringWidth_eq_zero _ (by rw [inv.last_width, hn])
          rw [hlast, hp]
          simpa [String.empty_append, string_mk_nil2] using hgood
        · left
          rw [hlw]
          rcases Decidable.not_and_iff_or_not.mp hcond with h1 | h2
          · omega
          · omega
    · show stringWidth
          (lastLine ((out ++ String.mk (List.replicate l.pendSpace ' ')) ++ f)) =
        l.n + l.pendSpace + stringWidth f
      rw [lastLine, hsplit, getLastD_append_ne _ _ _ (by simp)]
      exact hlw

theorem writeWord_fst_ind (l : LineWrapper) (o1 o2 f : String) :
    (LineWrapper.writeWord (l, o1) f).1 = (LineWrapper.writeWord (l, o2) f).1 := by
  rw [writeWord_eq, writeWord_eq]
  by_cases h : l.n > 0 ∧ l.n + l.pendSpace + stringWidth f > l.width
  · rw [if_pos h, if_pos h]
  · rw [if_neg h, if_neg h]

theorem writeWord_snd_shift (l : LineWrapper) (pre o f : String) :
    (LineWrapper.writeWord (l, pre ++ o) f).2 =
      pre ++ (LineWrapper.writeWord (l, o) f).2 := by
  rw [writeWord_eq, writeWord_eq]
  by_cases h : l.n > 0 ∧ l.n + l.pendSpace + stringWidth f > l.width
  · rw [if_pos h, if_pos h]
    simp [String.append_assoc]
  · rw [if_neg h, if_neg h]
    simp [String.append_assoc]

theorem foldl_writeWord_shift : ∀ (ws : List String) (l : LineWrapper) (pre o : String),
    ws.foldl LineWrapper.writeWord (l, pre ++ o) =
      ((ws.foldl LineWrapper.writeWord (l, o)).1,
        pre ++ (ws.foldl LineWrapper.writeWord (l, o)).2)
  | [], l, pre, o => rfl
  | f :: ws, l, pre, o => by
    simp only [List.foldl_cons]
    have h3 : LineWrapper.writeWord (l, pre ++ o) f =
        ((LineWrapper.writeWord (l, o) f).1,
          pre ++ (LineWrapper.writeWord (l, o) f).2) := by
      rw [← writeWord_fst_ind l (pre ++ o) o f, ← writeWord_snd_shift l pre o f]
    rw [h3, foldl_writeWord_shift ws _ pre _]

theorem wrapInv_fold (w : Nat) : ∀ (ws : List String) (l : LineWrapper) (out : String),
    WrapInv w (l, out) →
    (∀ f ∈ ws, f ≠ "" ∧ ∀ c ∈ f.data, goIsSpace c = false) →
    WrapInv w (ws.foldl LineWrapper.writeWord (l, out))
  | [], _, _, inv, _ => inv
  | f :: ws, l, out, inv, hws => by
    simp only [List.foldl_cons]
    have h1 := hws f (by simp)
    have inv2 := wrapInv_writeWord w l out f inv h1.1 h1.2
    exact wrapInv_fold w ws (LineWrapper.writeWord (l, out) f).1
      (LineWrapper.writeWord (l, out) f).2 inv2
      (fun g hg => hws g (by simp [hg]))

theorem wrapInv_printed (w : Nat) (l : LineWrapper) (out : String)
    (inv : WrapInv w (l, out)) :
    WrapInv w ({ l with printed := true, nl := 0 }, out) :=
  ⟨inv.lines_good, inv.last_width, inv.pend_le, inv.pend_pos, inv.width_eq⟩

theorem wrapInv_write (w : Nat) (l : LineWrapper) (out text : String)
    (inv : WrapInv w (l, out)) :
    WrapInv w ((l.write text).1, out ++ (l.write text).2) := by
  simp only [LineWrapper.write, LineWrapper.flush]
  split
  · have invf := wrapInv_flushN w 1 l out inv
    have invp := wrapInv_printed w _ _ invf
    have invfold := wrapInv_fold w (goFields text) _ _ invp
      (fun f hf => goFields_words text f hf)
    rw [foldl_writeWord_shift] at invfold
    exact invfold
  · have invp := wrapInv_printed w l out inv
    have invfold := wrapInv_fold w (goFields text) _ out invp
      (fun f hf => goFields_words text f hf)
    have hshift := foldl_writeWord_shift (goFields text)
      { l with printed := true, nl := 0 } out ""
    rw [String.append_empty] at hshift
    rw [← hshift]
    exact invfold

theorem wrapInv_runOps (w : Nat) : ∀ (ops : List WrapOp) (l : LineWrapper) (out : String),
    WrapInv w (l, out) → WrapInv w (runWrapOps l out ops)
  | [], _, _, inv => inv
  | op :: ops, l, out, inv => by
    cases op with
    | write t =>
      simp only [runWrapOps]
      exact wrapInv_runOps w ops _ _ (wrapInv_write w l out t inv)
    | flush =>
      simp only [runWrapOps]
      exact wrapInv_runOps w ops _ _ (wrapInv_flushN w 1 l out inv)
    | flushN k =>
      simp only [runWrapOps]
      exact wrapInv_runOps w ops _ _ (wrapInv_flushN w k l out inv)

theorem c9_wrapper_line_invariant :
    ∀ (ops : List WrapOp) (line : String),
      line ∈ splitNl (runWrapOps { width := 78 } "" ops).2 →
      stringWidth line ≤ 78 ∨ goFields line = [line] := by
  intro ops line hmem
  have inv0 : WrapInv 78 ({ width := 78 }, "") := by
    refine ⟨?_, by decide, by decide, by decide, rfl⟩
    intro li hli
    have hli2 : li = "" := by simpa [splitNl, splitNlGo] using hli
    left
    rw [hli2]
    decide
  have inv := wrapInv_runOps 78 ops { width := 78 } "" inv0
  exact inv.lines_good line hmem

theorem c9_wrapper_line_invariant_witness :
    stringWidth "hello" ≤ 78 ∨ goFields "hello" = ["hello"] :=
  c9_wrapper_line_invariant [.write "hello"] "hello" (by decide)


theorem dropWhile_head_not {α : Type} (p : α → Bool) :
    ∀ (l : List α) (c : α), (l.dropWhile p).head? = some c → p c = false
  | [], c, h => by simp [List.dropWhile] at h
  | a :: t, c, h => by
    by_cases ha : p a = true
    · rw [List.dropWhile_cons_of_pos ha] at h
      exact dropWhile_head_not p t c h
    · rw [List.dropWhile_cons_of_neg ha] at h
      simp only [List.head?_cons, Option.some.injEq] at h
      subst h
      simpa using ha

theorem nlRuns_cons_nl (cs : List Char) (r : Nat) :
    nlRunsAtMostTwo ('\n' :: cs) r =
      (decide (r + 1 ≤ 2) && nlRunsAtMostTwo cs (r + 1)) := by
  simp [nlRunsAtMostTwo]

theorem nlRuns_cons_other (c : Char) (cs : List Char) (r : Nat) (h : ¬c = '\n') :
    nlRunsAtMostTwo (c :: cs) r = nlRunsAtMostTwo cs 0 := by
  simp [nlRunsAtMostTwo, h]

theorem nlRuns_mono : ∀ (l : List Char) (r1 r2 : Nat), r1 ≤ r2 →
    nlRunsAtMostTwo l r2 = true → nlRunsAtMostTwo l r1 = true
  | [], _, _, _, _ => rfl
  | c :: cs, r1, r2, hr, h => by
    by_cases hc : c = '\n'
    · subst hc
      rw [nlRuns_cons_nl] at h ⊢
      simp only [Bool.and_eq_true, decide_eq_true_eq] at h ⊢
      exact ⟨by omega, nlRuns_mono cs (r1 + 1) (r2 + 1) (by omega) h.2⟩
    · rw [nlRuns_cons_other c cs _ hc] at h ⊢
      exact h

theorem nlRuns_append_elim_right : ∀ (v : List Char) (r : Nat) (w : List Char),
    nlRunsAtMostTwo (v ++ w) r = true → nlRunsAtMostTwo v r = true
  | [], _, _, _ => rfl
  | c :: cs, r, w, h => by
    by_cases hc : c = '\n'
    · subst hc
      rw [List.cons_append, nlRuns_cons_nl] at h
      rw [nlRuns_cons_nl]
      simp only [Bool.and_eq_true, decide_eq_true_eq] at h ⊢
      exact ⟨h.1, nlRuns_append_elim_right cs (r + 1) w h.2⟩
    · rw [List.cons_append, nlRuns_cons_other c _ _ hc] at h
      rw [nlRuns_cons_other c cs _ hc]
      exact nlRuns_append_elim_right cs 0 w h

theorem nlRuns_append_elim_left : ∀ (u : List Char) (r : Nat) (v : List Char),
    nlRunsAtMostTwo (u ++ v) r = true → nlRunsAtMostTwo v 0 = true
  | [], r, v, h => nlRuns_mono v 0 r (Nat.zero_le r) h
  | c :: cs, r, v, h => by
    by_cases hc : c = '\n'
    · subst hc
      rw [List.cons_append, nlRuns_cons_nl] at h
      simp only [Bool.and_eq_true] at h
      exact nlRuns_append_elim_left cs (r + 1) v h.2
    · rw [List.cons_append, nlRuns_cons_other c _ _ hc] at h
      exact nlRuns_append_elim_left cs 0 v h

theorem nlRuns_replicate_le_two (m : Nat) (hm : m ≤ 2) :
    nlRunsAtMostTwo (List.replicate m '\n') 0 = true := by
  interval_cases m <;> decide

theorem nlRuns_collapseGo : ∀ (l : List Char) (p : Nat),
    nlRunsAtMostTwo (collapseGo l p) 0 = true
  | [], p => nlRuns_replicate_le_two (min p 2) (by omega)
  | c :: cs, p => by
    by_cases hc : c = '\n'
    · subst hc
      rw [show collapseGo ('\n' :: cs) p = collapseGo cs (p + 1) from by
        simp [collapseGo]]
      exact nlRuns_collapseGo cs (p + 1)
    · rw [show collapseGo (c :: cs) p =
          List.replicate (min p 2) '\n' ++ c :: collapseGo cs 0 from by
        simp [collapseGo, hc]]
      have hrec := nlRuns_collapseGo cs 0
      have h2 : min p 2 = 0 ∨ min p 2 = 1 ∨ min p 2 = 2 := by omega
      rcases h2 with h2 | h2 | h2 <;>
        simp [h2, List.replicate, nlRuns_cons_nl, nlRuns_cons_other c _ _ hc, hrec]

theorem nlRuns_goTrimSpace (x : String) (h : nlRunsAtMostTwo x.data 0 = true) :
    nlRunsAtMostTwo (goTrimSpace x).data 0 = true := by
  have h1 := List.takeWhile_append_dropWhile goIsSpace x.data
  have h2 := List.takeWhile_append_dropWhile goIsSpace
    (x.data.dropWhile goIsSpace).reverse
  have hAruns : nlRunsAtMostTwo (x.data.dropWhile goIsSpace) 0 = true := by
    rw [← h1] at h
    exact nlRuns_append_elim_left _ 0 _ h
  have hAeq : x.data.dropWhile goIsSpace =
      ((x.data.dropWhile goIsSpace).reverse.dropWhile goIsSpace).reverse ++
        ((x.data.dropWhile goIsSpace).reverse.takeWhile goIsSpace).reverse := by
    have h3 := congrArg List.reverse h2
    simp only [List.reverse_append, List.reverse_reverse] at h3
    exact h3.symm
  rw [hAeq] at hAruns
  exact nlRuns_append_elim_right _ 0 _ hAruns

theorem trim_ends_aux (A : List Char)
    (hA : ∀ c, A.head? = some c → goIsSpace c = false) :
    trimmedAtEnds (A.reverse.dropWhile goIsSpace).reverse = true := by
  have h2 := List.takeWhile_append_dropWhile goIsSpace A.reverse
  simp only [trimmedAtEnds, Bool.and_eq_true]
  refine ⟨?_, ?_⟩
  · cases hh : (A.reverse.dropWhile goIsSpace).reverse.head? with
    | none => simp
    | some c =>
      rw [List.head?_reverse] at hh
      have hBne : A.reverse.dropWhile goIsSpace ≠ [] := by
        intro hnil
        rw [hnil] at hh
        simp at hh
      have hg1 := List.getLast?_append_of_ne_nil
        (A.reverse.takeWhile goIsSpace) hBne
      rw [h2, List.getLast?_reverse] at hg1
      have hc := hA c (by rw [hg1]; exact hh)
      simp [hc]
  · cases hh : (A.reverse.dropWhile goIsSpace).reverse.getLast? with
    | none => simp
    | some c =>
      rw [List.getLast?_reverse] at hh
      have hc := dropWhile_head_not goIsSpace A.reverse c hh
      simp [hc]

theorem trimmedAtEnds_goTrimSpace (x : String) :
    trimmedAtEnds (goTrimSpace x).data = true := by
  show trimmedAtEnds
    ((x.data.dropWhile goIsSpace).reverse.dropWhile goIsSpace).reverse = true
  exact trim_ends_aux _ (fun c hc => dropWhile_head_not goIsSpace x.data c hc)

theorem finalizeOutput_normalized (s : String) :
    nlRunsAtMostTwo (finalizeOutput s).data 0 = true ∧
    trimmedAtEnds (finalizeOutput s).data = true := by
  constructor
  · exact nlRuns_goTrimSpace _ (nlRuns_collapseGo _ 0)
  · exact trimmedAtEnds_goTrimSpace _

/-- Claim C6 (amended): the string returned by a successful top-level render
contains no run of three or more consecutive newlines and has no leading or
trailing whitespace. (The further original conjunct — no newline immediately
followed by a single space — fails; see the counterexample: the newline-space
replacement is a single non-iterated pass.) -/
theorem c6_finalize_amended (node : Node) (opts : Options) (r : String)
    (h : FromHTMLNode node opts = some r) :
    nlRunsAtMostTwo r.data 0 = true ∧ trimmedAtEnds r.data = true := by
  simp only [FromHTMLNode] at h
  cases ht : traverse (initialContext opts) node with
  | none => rw [ht] at h; simp at h
  | some ctx =>
    rw [ht] at h
    simp at h
    subst h
    exact finalizeOutput_normalized ctx.buf

/-- Witness for the amended claim C6 at a concrete render. -/
theorem c6_finalize_amended_witness :
    nlRunsAtMostTwo "hi".data 0 = true ∧ trimmedAtEnds "hi".data = true :=
  c6_finalize_amended (.text "hi") {} "hi" (by
    simp [FromHTMLNode, traverse, initialContext, TextifyTraverseContext.emit,
      LineWrapper.write, LineWrapper.flush, LineWrapper.flushN,
      LineWrapper.writeWord, goFields, fieldsGo, goIsSpace, goTrimSpace,
      finalizeOutput, collapseNewlines, collapseGo, replaceNlSpace,
      stringWidth, runeWidth, isWideRune])



theorem set_jcd_false (ctx : TextifyTraverseContext) (h : ctx.justClosedDiv = false) :
    { ctx with justClosedDiv := false } = ctx := by
  cases ctx
  simp_all

theorem set_at_len {α : Type} : ∀ (prev : List α) (cur x : α),
    (prev ++ [cur]).set prev.length x = prev ++ [x]
  | [], _, _ => rfl
  | a :: t, cur, x => by
    simp only [List.cons_append, List.length_cons]
    show a :: ((t ++ [cur]).set t.length x) = a :: (t ++ [x])
    rw [set_at_len t cur x]

theorem renderEachChild_text (opts : Options) (s : String) :
    renderEachChild opts [Node.text s] = some (cellText opts s) := by
  simp [renderEachChild, traverse, cellText, initialContext]

theorem traverse_cells : ∀ (cells : List SpecCell) (ctx : TextifyTraverseContext)
    (prev : List (List String)) (cur : List String),
    ctx.options.PrettyTables = true → ctx.justClosedDiv = false →
    ctx.tableCtx.body = prev ++ [cur] → ctx.tableCtx.tmpRow = prev.length →
    traverseChildren ctx (cells.map cellNode) =
      some { ctx with tableCtx := { ctx.tableCtx with
        header := ctx.tableCtx.header ++
          ((cells.filter isTh).map (fun c => cellText ctx.options c.content)),
        body := prev ++ [cur ++ (if ctx.tableCtx.isInFooter then []
          else (cells.filter (fun c => !isTh c)).map
            (fun c => cellText ctx.options c.content))],
        footer := ctx.tableCtx.footer ++ (if ctx.tableCtx.isInFooter then
          (cells.filter (fun c => !isTh c)).map
            (fun c => cellText ctx.options c.content) else []) } }
  | [], ctx, prev, cur, hpt, hjcd, hbody, htmp => by
    simp only [List.map_nil, traverseChildren, List.filter_nil,
      List.append_nil, ite_self]
    rw [← hbody]
  | c :: cells, ctx, prev, cur, hpt, hjcd, hbody, htmp => by
    obtain ⟨kind, content⟩ := c
    simp only [List.map_cons, traverseChildren]
    cases kind with
    | th =>
      have hstep : traverse ctx (cellNode ⟨CellKind.th, content⟩) =
          some { ctx with tableCtx := { ctx.tableCtx with
            header := ctx.tableCtx.header ++ [cellText ctx.options content] } } := by
        simp [cellNode, cellAtom, traverse, handleElement, handleTableElement,
          set_jcd_false ctx hjcd, hpt, renderEachChild_text]
      rw [hstep]
      have ih := traverse_cells cells
        { ctx with tableCtx := { ctx.tableCtx with
          header := ctx.tableCtx.header ++ [cellText ctx.options content] } }
        prev cur hpt hjcd hbody htmp
      simp only [Option.some_bind]
      refine Eq.trans ih ?_
      simp [List.filter_cons, isTh, List.append_assoc]
    | td =>
      cases hfoot : ctx.tableCtx.isInFooter with
      | true =>
        have hstep : traverse ctx (cellNode ⟨CellKind.td, content⟩) =
            some { ctx with tableCtx := { ctx.tableCtx with
              footer := ctx.tableCtx.footer ++ [cellText ctx.options content] } } := by
          simp [cellNode, cellAtom, traverse, handleElement, handleTableElement,
            set_jcd_false ctx hjcd, hpt, renderEachChild_text, hfoot]
        rw [hstep]
        have ih := traverse_cells cells
          { ctx with tableCtx := { ctx.tableCtx with
            footer := ctx.tableCtx.footer ++ [cellText ctx.options content] } }
          prev cur hpt hjcd hbody htmp
        simp only [Option.some_bind]
        refine Eq.trans ih ?_
        simp [List.filter_cons, isTh, List.append_assoc, hfoot]
      | false =>
        have hlt : ctx.tableCtx.tmpRow < ctx.tableCtx.body.length := by
          rw [hbody, htmp]
          simp
        have hstep : traverse ctx (cellNode ⟨CellKind.td, content⟩) =
            some { ctx with tableCtx := { ctx.tableCtx with
              body := prev ++ [cur ++ [cellText ctx.options content]] } } := by
          simp [cellNode, cellAtom, traverse, handleElement, handleTableElement,
            set_jcd_false ctx hjcd, hpt, renderEachChild_text, hfoot, hlt,
            hbody, htmp, set_at_len, List.getElem_concat_length]
        rw [hstep]
        have ih := traverse_cells cells
          { ctx with tableCtx := { ctx.tableCtx with
            body := prev ++ [cur ++ [cellText ctx.options content]] } }
          prev (cur ++ [cellText ctx.options content]) hpt hjcd rfl htmp
        simp only [Option.some_bind]
        refine Eq.trans ih ?_
        simp [List.filter_cons, isTh, List.append_assoc, hfoot]

theorem traverse_rows : ∀ (rows : List (List SpecCell)) (ctx : TextifyTraverseContext),
    ctx.options.PrettyTables = true → ctx.justClosedDiv = false →
    ctx.tableCtx.tmpRow = ctx.tableCtx.body.length →
    traverseChildren ctx (rows.map rowNode) =
      some { ctx with tableCtx := { ctx.tableCtx with
        header := ctx.tableCtx.header ++
          (rows.map (fun r => (r.filter isTh).map
            (fun c => cellText ctx.options c.content))).flatten,
        body := ctx.tableCtx.body ++ rows.map (fun r =>
          if ctx.tableCtx.isInFooter then [] else
            (r.filter (fun c => !isTh c)).map
              (fun c => cellText ctx.options c.content)),
        footer := ctx.tableCtx.footer ++ (if ctx.tableCtx.isInFooter then
          (rows.map (fun r => (r.filter (fun c => !isTh c)).map
            (fun c => cellText ctx.options c.content))).flatten else []),
        tmpRow := ctx.tableCtx.tmpRow + rows.length } }
  | [], ctx, hpt, hjcd, htmp => by
    simp only [List.map_nil, traverseChildren, List.flatten_nil, List.append_nil,
      List.length_nil, Nat.add_zero, ite_self]
  | r :: rows, ctx, hpt, hjcd, htmp => by
    simp only [List.map_cons, traverseChildren]
    rw [show traverse ctx (rowNode r) =
        (traverseChildren { ctx with tableCtx := { ctx.tableCtx with
            body := ctx.tableCtx.body ++ [[]] } } (r.map cellNode)).bind
          (fun c => some { c with tableCtx := { c.tableCtx with
            tmpRow := c.tableCtx.tmpRow + 1 } }) from by
      simp [rowNode, traverse, handleElement, handleTableElement,
        set_jcd_false ctx hjcd, hpt]]
    rw [traverse_cells r
      { ctx with tableCtx := { ctx.tableCtx with
        body := ctx.tableCtx.body ++ [[]] } }
      ctx.tableCtx.body [] hpt (by simpa using hjcd) (by simp) (by simpa using htmp)]
    simp only [Option.some_bind]
    refine Eq.trans (traverse_rows rows _ hpt ?_ ?_) ?_
    · simpa using hjcd
    · simp [htmp]
    · simp [List.append_assoc, List.flatten_cons, Nat.add_comm, Nat.add_assoc,
        Nat.add_left_comm]
      cases ctx.tableCtx.isInFooter <;> simp

theorem traverse_sections : ∀ (secs : List SpecSection) (ctx : TextifyTraverseContext),
    ctx.options.PrettyTables = true → ctx.justClosedDiv = false →
    ctx.tableCtx.isInFooter = false →
    ctx.tableCtx.tmpRow = ctx.tableCtx.body.length →
    traverseChildren ctx (secs.map sectionNode) =
      some { ctx with tableCtx := { ctx.tableCtx with
        header := ctx.tableCtx.header ++ specHeaderCells ctx.options secs,
        body := ctx.tableCtx.body ++ specBodyRows ctx.options secs,
        footer := ctx.tableCtx.footer ++ specFooterCells ctx.options secs,
        tmpRow := ctx.tableCtx.tmpRow + (secs.map (fun s => s.rows.length)).sum,
        isInFooter := false } }
  | [], ctx, hpt, hjcd, hfoot, htmp => by
    simp only [List.map_nil, traverseChildren, specHeaderCells, specBodyRows,
      specFooterCells, List.flatten_nil, List.append_nil, List.sum_nil,
      Nat.add_zero]
    rw [← hfoot]
  | sec :: secs, ctx, hpt, hjcd, hfoot, htmp => by
    obtain ⟨kind, rows⟩ := sec
    simp only [List.map_cons, traverseChildren]
    cases kind with
    | thead =>
      rw [show traverse ctx (sectionNode ⟨SectionKind.thead, rows⟩) =
          traverseChildren ctx (rows.map rowNode) from by
        simp [sectionNode, sectionAtom, traverse, handleElement,
          set_jcd_false ctx hjcd]]
      rw [traverse_rows rows ctx hpt hjcd htmp]
      simp only [Option.some_bind]
      refine Eq.trans (traverse_sections secs _ hpt ?_ ?_ ?_) ?_
      · simpa using hjcd
      · simpa using hfoot
      · simp [htmp]
      · simp [specHeaderCells, specBodyRows, specFooterCells, hfoot,
          List.append_assoc, Nat.add_comm, Nat.add_assoc, Nat.add_left_comm]
    | tbody =>
      rw [show traverse ctx (sectionNode ⟨SectionKind.tbody, rows⟩) =
          traverseChildren ctx (rows.map rowNode) from by
        simp [sectionNode, sectionAtom, traverse, handleElement,
          set_jcd_false ctx hjcd]]
      rw [traverse_rows rows ctx hpt hjcd htmp]
      simp only [Option.some_bind]
      refine Eq.trans (traverse_sections secs _ hpt ?_ ?_ ?_) ?_
      · simpa using hjcd
      · simpa using hfoot
      · simp [htmp]
      · simp [specHeaderCells, specBodyRows, specFooterCells, hfoot,
          List.append_assoc, Nat.add_comm, Nat.add_assoc, Nat.add_left_comm]
    | tfoot =>
      rw [show traverse ctx (sectionNode ⟨SectionKind.tfoot, rows⟩) =
          (traverseChildren { ctx with tableCtx := { ctx.tableCtx with
              isInFooter := true } } (rows.map rowNode)).bind
            (fun c => some { c with tableCtx := { c.tableCtx with
              isInFooter := false } }) from by
        simp [sectionNode, sectionAtom, traverse, handleElement,
          handleTableElement, set_jcd_false ctx hjcd, hpt]]
      rw [traverse_rows rows
        { ctx with tableCtx := { ctx.tableCtx with isInFooter := true } }
        hpt (by simpa using hjcd) (by simpa using htmp)]
      simp only [Option.some_bind]
      refine Eq.trans (traverse_sections secs _ hpt ?_ ?_ ?_) ?_
      · simpa using hjcd
      · simp
      · simp [htmp]
      · simp [specHeaderCells, specBodyRows, specFooterCells,
          List.append_assoc, Nat.add_comm, Nat.add_assoc, Nat.add_left_comm]

theorem emit_tableCtx (c : TextifyTraverseContext) (d : String) :
    (TextifyTraverseContext.emit c d).tableCtx = c.tableCtx := by
  unfold TextifyTraverseContext.emit
  repeat' split
  all_goals rfl

theorem emit_options (c : TextifyTraverseContext) (d : String) :
    (TextifyTraverseContext.emit c d).options = c.options := by
  unfold TextifyTraverseContext.emit
  repeat' split
  all_goals rfl

theorem emit_justClosedDiv (c : TextifyTraverseContext) (d : String) :
    (TextifyTraverseContext.emit c d).justClosedDiv = c.justClosedDiv := by
  unfold TextifyTraverseContext.emit
  repeat' split
  all_goals rfl

/-- Claim C5: with pretty tables enabled, a structured table with
`thead`/`tbody`/`tfoot` sections accumulates, before the matrix is handed to
the external table renderer: every `th` cell of any row into one flat header
list in traversal order; one new body row per `tr`; every `td` into the row
opened by its nearest enclosing `tr`, except `td`s inside `tfoot`, which go
to the footer list (their `tr`s still opening empty body rows). -/
theorem c5_table_partition (ctx : TextifyTraverseContext) (secs : List SpecSection)
    (hpt : ctx.options.PrettyTables = true) :
    ∃ ctx2, traverse ctx (tableNode secs) = some ctx2 ∧
      ctx2.tableCtx.header = specHeaderCells ctx.options secs ∧
      ctx2.tableCtx.body = specBodyRows ctx.options secs ∧
      ctx2.tableCtx.footer = specFooterCells ctx.options secs := by
  have hform : traverse ctx (tableNode secs) =
      Option.map (fun c => { c with tableLevel := c.tableLevel - 1 })
        ((traverseChildren
            { TextifyTraverseContext.emit
                { ctx with justClosedDiv := false, tableLevel := ctx.tableLevel + 1 }
                "\n\n"
              with tableCtx := TableTraverseContext.init }
            (secs.map sectionNode)).bind
          (fun c => some (TextifyTraverseContext.emit (TextifyTraverseContext.emit c
            (tablewriterRender c.tableCtx.header c.tableCtx.body
              c.tableCtx.footer)) "\n\n"))) := by
    simp [tableNode, traverse, handleElement, handleTableElement, hpt]
  rw [hform]
  rw [traverse_sections secs
    { TextifyTraverseContext.emit
        { ctx with justClosedDiv := false, tableLevel := ctx.tableLevel + 1 }
        "\n\n"
      with tableCtx := TableTraverseContext.init }
    (by simp [emit_options, hpt]) (by simp [emit_justClosedDiv])
    (by simp [TableTraverseContext.init]) (by simp [TableTraverseContext.init])]
  simp only [Option.some_bind, Option.map_some]
  refine ⟨_, rfl, ?_, ?_, ?_⟩
  · simp [emit_tableCtx, emit_options, TableTraverseContext.init]
  · simp [emit_tableCtx, emit_options, TableTraverseContext.init]
  · simp [emit_tableCtx, emit_options, TableTraverseContext.init]

/-- Witness for claim C5 at a concrete two-section table. -/
theorem c5_table_partition_witness :
    ∃ ctx2, traverse (initialContext { PrettyTables := true })
        (tableNode [⟨SectionKind.thead, [[⟨CellKind.th, "H"⟩, ⟨CellKind.td, "D"⟩]]⟩,
          ⟨SectionKind.tfoot, [[⟨CellKind.td, "F"⟩]]⟩]) = some ctx2 ∧
      ctx2.tableCtx.header = specHeaderCells { PrettyTables := true }
        [⟨SectionKind.thead, [[⟨CellKind.th, "H"⟩, ⟨CellKind.td, "D"⟩]]⟩,
          ⟨SectionKind.tfoot, [[⟨CellKind.td, "F"⟩]]⟩] ∧
      ctx2.tableCtx.body = specBodyRows { PrettyTables := true }
        [⟨SectionKind.thead, [[⟨CellKind.th, "H"⟩, ⟨CellKind.td, "D"⟩]]⟩,
          ⟨SectionKind.tfoot, [[⟨CellKind.td, "F"⟩]]⟩] ∧
      ctx2.tableCtx.footer = specFooterCells { PrettyTables := true }
        [⟨SectionKind.thead, [[⟨CellKind.th, "H"⟩, ⟨CellKind.td, "D"⟩]]⟩,
          ⟨SectionKind.tfoot, [[⟨CellKind.td, "F"⟩]]⟩] :=
  c5_table_partition (initialContext { PrettyTables := true })
    [⟨SectionKind.thead, [[⟨CellKind.th, "H"⟩, ⟨CellKind.td, "D"⟩]]⟩,
      ⟨SectionKind.tfoot, [[⟨CellKind.td, "F"⟩]]⟩] rfl


/-! ### Prefix erasure (claim C8)

Congruence of the traversal under erasure of the line prefix: contexts that
agree on every field except `linePfx` produce traversal results that again
agree on every field except `linePfx`, uniformly for the original traversal
and the prefix-free variant. -/

theorem eraseCtx_inj (c1 c2 : TextifyTraverseContext) (h : eraseCtx c1 = eraseCtx c2) :
    c1.buf = c2.buf ∧ c1.tableCtx = c2.tableCtx ∧ c1.options = c2.options ∧
    c1.endsWithSpace = c2.endsWithSpace ∧ c1.justClosedDiv = c2.justClosedDiv ∧
    c1.blockquoteLevel = c2.blockquoteLevel ∧ c1.tableLevel = c2.tableLevel ∧
    c1.lineWrapper = c2.lineWrapper ∧ c1.isPre = c2.isPre := by
  simpa [eraseCtx, ErasedCtx.mk.injEq] using h

theorem optErase_pure_congr (a b : TextifyTraverseContext)
    (h : eraseCtx a = eraseCtx b) : optErase (some a) = optErase (some b) := by
  simp [optErase, h]

theorem optErase_bind_congr (x y : Option TextifyTraverseContext)
    (hxy : optErase x = optErase y)
    (f g : TextifyTraverseContext → Option TextifyTraverseContext)
    (hfg : ∀ a b, eraseCtx a = eraseCtx b → optErase (f a) = optErase (g b)) :
    optErase (x.bind f) = optErase (y.bind g) := by
  cases x with
  | none =>
    cases y with
    | none => rfl
    | some b => simp [optErase] at hxy
  | some a =>
    cases y with
    | none => simp [optErase] at hxy
    | some b =>
      simp only [Option.some_bind]
      exact hfg a b (by simpa [optErase] using hxy)

theorem erase_emit (a b : TextifyTraverseContext) (d : String)
    (h : eraseCtx a = eraseCtx b) :
    eraseCtx (a.emit d) = eraseCtx (b.emit d) := by
  obtain ⟨b1, p1, t1, o1, e1, j1, q1, v1, w1, i1⟩ := a
  obtain ⟨b2, p2, t2, o2, e2, j2, q2, v2, w2, i2⟩ := b
  obtain ⟨rfl, rfl, rfl, rfl, rfl, rfl, rfl, rfl, rfl⟩ := eraseCtx_inj _ _ h
  unfold TextifyTraverseContext.emit
  repeat' split
  all_goals rfl

theorem erase_congr_jcd (a b : TextifyTraverseContext)
    (h : eraseCtx a = eraseCtx b) (x : Bool) :
    eraseCtx { a with justClosedDiv := x } = eraseCtx { b with justClosedDiv := x } := by
  obtain ⟨b1, p1, t1, o1, e1, j1, q1, v1, w1, i1⟩ := a
  obtain ⟨b2, p2, t2, o2, e2, j2, q2, v2, w2, i2⟩ := b
  obtain ⟨rfl, rfl, rfl, rfl, rfl, rfl, rfl, rfl, rfl⟩ := eraseCtx_inj _ _ h
  rfl

theorem erase_congr_tableLevel (a b : TextifyTraverseContext)
    (h : eraseCtx a = eraseCtx b) (f : Nat → Nat) :
    eraseCtx { a with tableLevel := f a.tableLevel } =
      eraseCtx { b with tableLevel := f b.tableLevel } := by
  obtain ⟨b1, p1, t1, o1, e1, j1, q1, v1, w1, i1⟩ := a
  obtain ⟨b2, p2, t2, o2, e2, j2, q2, v2, w2, i2⟩ := b
  obtain ⟨rfl, rfl, rfl, rfl, rfl, rfl, rfl, rfl, rfl⟩ := eraseCtx_inj _ _ h
  rfl

theorem erase_congr_isPre (a b : TextifyTraverseContext)
    (h : eraseCtx a = eraseCtx b) (x : Bool) :
    eraseCtx { a with isPre := x } = eraseCtx { b with isPre := x } := by
  obtain ⟨b1, p1, t1, o1, e1, j1, q1, v1, w1, i1⟩ := a
  obtain ⟨b2, p2, t2, o2, e2, j2, q2, v2, w2, i2⟩ := b
  obtain ⟨rfl, rfl, rfl, rfl, rfl, rfl, rfl, rfl, rfl⟩ := eraseCtx_inj _ _ h
  rfl

theorem erase_congr_tableCtx (a b : TextifyTraverseContext)
    (h : eraseCtx a = eraseCtx b) (f : TableTraverseContext → TableTraverseContext) :
    eraseCtx { a with tableCtx := f a.tableCtx } =
      eraseCtx { b with tableCtx := f b.tableCtx } := by
  obtain ⟨b1, p1, t1, o1, e1, j1, q1, v1, w1, i1⟩ := a
  obtain ⟨b2, p2, t2, o2, e2, j2, q2, v2, w2, i2⟩ := b
  obtain ⟨rfl, rfl, rfl, rfl, rfl, rfl, rfl, rfl, rfl⟩ := eraseCtx_inj _ _ h
  rfl

theorem emit_blockquoteLevel (c : TextifyTraverseContext) (d : String) :
    (c.emit d).blockquoteLevel = c.blockquoteLevel := by
  unfold TextifyTraverseContext.emit
  repeat' split
  all_goals rfl
theorem erase_mk_pfx (bu : String) (pA pB : String) (t : TableTraverseContext)
    (o : Options) (e j : Bool) (q v : Nat) (w : LineWrapper) (i : Bool) :
    eraseCtx ⟨bu, pA, t, o, e, j, q, v, w, i⟩ =
      eraseCtx ⟨bu, pB, t, o, e, j, q, v, w, i⟩ := rfl

theorem optErase_map_congr (x y : Option TextifyTraverseContext)
    (hxy : optErase x = optErase y)
    (f g : TextifyTraverseContext → TextifyTraverseContext)
    (hfg : ∀ a b, eraseCtx a = eraseCtx b → eraseCtx (f a) = eraseCtx (g b)) :
    optErase (x.map f) = optErase (y.map g) := by
  cases x with
  | none =>
    cases y with
    | none => rfl
    | some b => simp [optErase] at hxy
  | some a =>
    cases y with
    | none => simp [optErase] at hxy
    | some b =>
      show optErase (some (f a)) = optErase (some (g b))
      exact optErase_pure_congr _ _ (hfg a b (by simpa [optErase] using hxy))

theorem optErase_bind_str_congr (x : Option String)
    (f g : String → Option TextifyTraverseContext)
    (hfg : ∀ s, optErase (f s) = optErase (g s)) :
    optErase (x.bind f) = optErase (x.bind g) := by
  cases x with
  | none => rfl
  | some s => exact hfg s

set_option maxHeartbeats 3200000 in
mutual

theorem traverse_np : ∀ (n : Node) (c1 c2 : TextifyTraverseContext),
    eraseCtx c1 = eraseCtx c2 →
    optErase (traverse c1 n) = optErase (traverseNP c2 n)
  | .text s, c1, c2, h => by
    obtain ⟨b1, p1, t1, o1, e1, j1, q1, v1, w1, i1⟩ := c1
    obtain ⟨b2, p2, t2, o2, e2, j2, q2, v2, w2, i2⟩ := c2
    obtain ⟨rfl, rfl, rfl, rfl, rfl, rfl, rfl, rfl, rfl⟩ := eraseCtx_inj _ _ h
    simp only [traverse, traverseNP]
    exact optErase_pure_congr _ _ (erase_emit _ _ _ (erase_mk_pfx _ _ _ _ _ _ _ _ _ _ _))
  | .element tag attrs children, c1, c2, h => by
    simp only [traverse, traverseNP]
    exact handleElement_np tag attrs children c1 c2 h
  | .document children, c1, c2, h => by
    simp only [traverse, traverseNP]
    exact traverseChildren_np children c1 c2 h
termination_by n => (sizeOf n, 4)

theorem handleElement_np : ∀ (tag : Atom) (attrs : List (String × String))
    (children : List Node) (c1 c2 : TextifyTraverseContext),
    eraseCtx c1 = eraseCtx c2 →
    optErase (handleElement c1 tag attrs children) =
      optErase (handleElementNP c2 tag attrs children)
  | tag, attrs, children, c1, c2, h => by
    obtain ⟨b1, p1, t1, o1, e1, j1, q1, v1, w1, i1⟩ := c1
    obtain ⟨b2, p2, t2, o2, e2, j2, q2, v2, w2, i2⟩ := c2
    obtain ⟨rfl, rfl, rfl, rfl, rfl, rfl, rfl, rfl, rfl⟩ := eraseCtx_inj _ _ h
    cases tag with
    | br =>
      simp only [handleElement, handleElementNP]
      exact optErase_pure_congr _ _ (erase_emit _ _ _ (erase_mk_pfx _ _ _ _ _ _ _ _ _ _ _))
    | h1 =>
      simp only [handleElement, handleElementNP, reduceIte]
      refine optErase_bind_congr _ _ (traverseChildren_np children _ _ (erase_mk_pfx _ _ _ _ _ _ _ _ _ _ _)) _ _ ?_
      intro a b hab
      have hbuf : a.buf = b.buf := (eraseCtx_inj a b hab).1
      simp only [hbuf]
      by_cases hto : o1.TextOnly = true
      · simp only [if_pos hto]
        exact optErase_pure_congr _ _ (erase_emit _ _ _ (erase_mk_pfx _ _ _ _ _ _ _ _ _ _ _))
      · simp only [if_neg hto]
        exact optErase_pure_congr _ _ (erase_emit _ _ _ (erase_emit _ _ _
          (erase_emit _ _ _ (erase_emit _ _ _ (erase_emit _ _ _ (erase_emit _ _ _
            (erase_emit _ _ _ (erase_mk_pfx _ _ _ _ _ _ _ _ _ _ _))))))))
    | h2 =>
      simp only [handleElement, handleElementNP, reduceIte]
      refine optErase_bind_congr _ _ (traverseChildren_np children _ _ (erase_mk_pfx _ _ _ _ _ _ _ _ _ _ _)) _ _ ?_
      intro a b hab
      have hbuf : a.buf = b.buf := (eraseCtx_inj a b hab).1
      simp only [hbuf]
      by_cases hto : o1.TextOnly = true
      · simp only [if_pos hto]
        exact optErase_pure_congr _ _ (erase_emit _ _ _ (erase_mk_pfx _ _ _ _ _ _ _ _ _ _ _))
      · simp only [if_neg hto]
        exact optErase_pure_congr _ _ (erase_emit _ _ _ (erase_emit _ _ _
          (erase_emit _ _ _ (erase_emit _ _ _ (erase_emit _ _ _ (erase_mk_pfx _ _ _ _ _ _ _ _ _ _ _))))))
    | h3 =>
      simp only [handleElement, handleElementNP, reduceIte]
      refine optErase_bind_congr _ _ (traverseChildren_np children _ _ (erase_mk_pfx _ _ _ _ _ _ _ _ _ _ _)) _ _ ?_
      intro a b hab
      have hbuf : a.buf = b.buf := (eraseCtx_inj a b hab).1
      simp only [hbuf]
      by_cases hto : o1.TextOnly = true
      · simp only [if_pos hto]
        exact optErase_pure_congr _ _ (erase_emit _ _ _ (erase_mk_pfx _ _ _ _ _ _ _ _ _ _ _))
      · simp only [if_neg hto]
        exact optErase_pure_congr _ _ (erase_emit _ _ _ (erase_emit _ _ _
          (erase_emit _ _ _ (erase_emit _ _ _ (erase_emit _ _ _ (erase_mk_pfx _ _ _ _ _ _ _ _ _ _ _))))))
    | blockquote =>
      simp only [handleElement, handleElementNP]
      cases hto : o1.TextOnly with
      | false =>
        simp only [Bool.not_false, reduceIte, emit_blockquoteLevel]
        by_cases hq : q1 + 1 = 1
        · simp only [if_pos hq]
          refine optErase_bind_congr _ _ (traverseChildren_np children _ _ ?hd) _ _ ?tl
          case hd => exact erase_emit _ _ _ (erase_emit _ _ _ rfl)
          case tl =>
            intro a b hab
            obtain ⟨ba, pa, ta, oa, ea, ja, qa, va, wa, ia⟩ := a
            obtain ⟨bb, pb, tb, ob2, eb, jb, qb, vb, wb, ib⟩ := b
            obtain ⟨rfl, rfl, rfl, rfl, rfl, rfl, rfl, rfl, rfl⟩ := eraseCtx_inj _ _ hab
            refine optErase_pure_congr _ _ ?_
            apply erase_emit
            repeat' split
            all_goals rfl
        · simp only [if_neg hq]
          refine optErase_bind_congr _ _ (traverseChildren_np children _ _ ?hd) _ _ ?tl
          case hd => exact erase_emit _ _ _ rfl
          case tl =>
            intro a b hab
            obtain ⟨ba, pa, ta, oa, ea, ja, qa, va, wa, ia⟩ := a
            obtain ⟨bb, pb, tb, ob2, eb, jb, qb, vb, wb, ib⟩ := b
            obtain ⟨rfl, rfl, rfl, rfl, rfl, rfl, rfl, rfl, rfl⟩ := eraseCtx_inj _ _ hab
            refine optErase_pure_congr _ _ ?_
            apply erase_emit
            repeat' split
            all_goals rfl
      | true =>
        simp only [Bool.not_true, Bool.false_eq_true, reduceIte, emit_blockquoteLevel]
        by_cases hq : q1 + 1 = 1
        · simp only [if_pos hq]
          refine optErase_bind_congr _ _ (traverseChildren_np children _ _ ?hd) _ _ ?tl
          case hd => exact erase_emit _ _ _ (erase_emit _ _ _ rfl)
          case tl =>
            intro a b hab
            obtain ⟨ba, pa, ta, oa, ea, ja, qa, va, wa, ia⟩ := a
            obtain ⟨bb, pb, tb, ob2, eb, jb, qb, vb, wb, ib⟩ := b
            obtain ⟨rfl, rfl, rfl, rfl, rfl, rfl, rfl, rfl, rfl⟩ := eraseCtx_inj _ _ hab
            refine optErase_pure_congr _ _ ?_
            apply erase_emit
            repeat' split
            all_goals rfl
        · simp only [if_neg hq]
          refine optErase_bind_congr _ _ (traverseChildren_np children _ _ ?hd) _ _ ?tl
          case hd => exact erase_emit _ _ _ rfl
          case tl =>
            intro a b hab
            obtain ⟨ba, pa, ta, oa, ea, ja, qa, va, wa, ia⟩ := a
            obtain ⟨bb, pb, tb, ob2, eb, jb, qb, vb, wb, ib⟩ := b
            obtain ⟨rfl, rfl, rfl, rfl, rfl, rfl, rfl, rfl, rfl⟩ := eraseCtx_inj _ _ hab
            refine optErase_pure_congr _ _ ?_
            apply erase_emit
            repeat' split
            all_goals rfl
    | div =>
      simp only [handleElement, handleElementNP]
      refine optErase_bind_congr _ _ (traverseChildren_np children _ _ (erase_mk_pfx _ _ _ _ _ _ _ _ _ _ _)) _ _ ?_
      intro a b hab
      obtain ⟨ba, pa, ta, oa, ea, ja, qa, va, wa, ia⟩ := a
      obtain ⟨bb, pb, tb, ob2, eb, jb, qb, vb, wb, ib⟩ := b
      obtain ⟨rfl, rfl, rfl, rfl, rfl, rfl, rfl, rfl, rfl⟩ := eraseCtx_inj _ _ hab
      cases ja with
      | false =>
        simp only [Bool.not_false, reduceIte]
        exact optErase_pure_congr _ _ (erase_congr_jcd _ _ (erase_emit _ _ _ (erase_mk_pfx _ _ _ _ _ _ _ _ _ _ _)) true)
      | true =>
        simp only [Bool.not_true, Bool.false_eq_true, reduceIte]
        exact optErase_pure_congr _ _ (erase_mk_pfx _ _ _ _ _ _ _ _ _ _ _)
    | li =>
      simp only [handleElement, handleElementNP]
      cases hto : o1.TextOnly with
      | false =>
        simp only [Bool.not_false, reduceIte]
        refine optErase_bind_congr _ _ (traverseChildren_np children _ _
          (erase_emit _ _ _ (erase_mk_pfx _ _ _ _ _ _ _ _ _ _ _))) _ _ ?_
        intro a b hab
        exact optErase_pure_congr _ _ (erase_emit _ _ _ hab)
      | true =>
        simp only [Bool.not_true, Bool.false_eq_true, reduceIte]
        refine optErase_bind_congr _ _ (traverseChildren_np children _ _ (erase_mk_pfx _ _ _ _ _ _ _ _ _ _ _)) _ _ ?_
        intro a b hab
        exact optErase_pure_congr _ _ (erase_emit _ _ _ hab)
    | b =>
      simp only [handleElement, handleElementNP]
      refine optErase_bind_congr _ _ (traverseChildren_np children _ _ (erase_mk_pfx _ _ _ _ _ _ _ _ _ _ _)) _ _ ?_
      intro a b hab
      have hbuf : a.buf = b.buf := (eraseCtx_inj a b hab).1
      simp only [hbuf]
      by_cases hto : o1.TextOnly = true
      · simp only [if_pos hto]
        exact optErase_pure_congr _ _ (erase_emit _ _ _ (erase_mk_pfx _ _ _ _ _ _ _ _ _ _ _))
      · simp only [if_neg hto]
        exact optErase_pure_congr _ _ (erase_emit _ _ _ (erase_mk_pfx _ _ _ _ _ _ _ _ _ _ _))
    | strong =>
      simp only [handleElement, handleElementNP]
      refine optErase_bind_congr _ _ (traverseChildren_np children _ _ (erase_mk_pfx _ _ _ _ _ _ _ _ _ _ _)) _ _ ?_
      intro a b hab
      have hbuf : a.buf = b.buf := (eraseCtx_inj a b hab).1
      simp only [hbuf]
      by_cases hto : o1.TextOnly = true
      · simp only [if_pos hto]
        exact optErase_pure_congr _ _ (erase_emit _ _ _ (erase_mk_pfx _ _ _ _ _ _ _ _ _ _ _))
      · simp only [if_neg hto]
        exact optErase_pure_congr _ _ (erase_emit _ _ _ (erase_mk_pfx _ _ _ _ _ _ _ _ _ _ _))
    | a =>
      rcases children with _ | ⟨c0, _ | ⟨c0b, crest⟩⟩
      ·
        simp only [handleElement, handleElementNP]
        refine optErase_bind_congr _ _ (traverseChildren_np _ _ _ (erase_mk_pfx _ _ _ _ _ _ _ _ _ _ _)) _ _ ?_
        intro a b hab
        have ho2 : a.options = b.options := (eraseCtx_inj a b hab).2.2.1
        simp only [ho2]
        exact optErase_pure_congr _ _ (erase_emit _ _ _ hab)
      · rcases c0 with s | ⟨ctag, cattrs, cch⟩ | cch
        ·
          simp only [handleElement, handleElementNP]
          refine optErase_bind_congr _ _ (traverseChildren_np _ _ _ (erase_mk_pfx _ _ _ _ _ _ _ _ _ _ _)) _ _ ?_
          intro a b hab
          have ho2 : a.options = b.options := (eraseCtx_inj a b hab).2.2.1
          simp only [ho2]
          exact optErase_pure_congr _ _ (erase_emit _ _ _ hab)
        · cases ctag with
          | img =>
            simp only [handleElement, handleElementNP]
            by_cases halt : getAttrVal cattrs "alt" ≠ ""
            · simp only [if_pos halt, pure_bind, emit_options]
              exact optErase_pure_congr _ _ (erase_emit _ _ _
                (erase_emit _ _ _ (erase_mk_pfx _ _ _ _ _ _ _ _ _ _ _)))
            · simp only [if_neg halt, pure_bind]
              exact optErase_pure_congr _ _ (erase_emit _ _ _ (erase_mk_pfx _ _ _ _ _ _ _ _ _ _ _))
          | _ =>
            simp only [handleElement, handleElementNP]
            refine optErase_bind_congr _ _ (traverseChildren_np _ _ _ (erase_mk_pfx _ _ _ _ _ _ _ _ _ _ _)) _ _ ?_
            intro a b hab
            have ho2 : a.options = b.options := (eraseCtx_inj a b hab).2.2.1
            simp only [ho2]
            exact optErase_pure_congr _ _ (erase_emit _ _ _ hab)
        ·
          simp only [handleElement, handleElementNP]
          refine optErase_bind_congr _ _ (traverseChildren_np _ _ _ (erase_mk_pfx _ _ _ _ _ _ _ _ _ _ _)) _ _ ?_
          intro a b hab
          have ho2 : a.options = b.options := (eraseCtx_inj a b hab).2.2.1
          simp only [ho2]
          exact optErase_pure_congr _ _ (erase_emit _ _ _ hab)
      ·
        simp only [handleElement, handleElementNP]
        refine optErase_bind_congr _ _ (traverseChildren_np _ _ _ (erase_mk_pfx _ _ _ _ _ _ _ _ _ _ _)) _ _ ?_
        intro a b hab
        have ho2 : a.options = b.options := (eraseCtx_inj a b hab).2.2.1
        simp only [ho2]
        exact optErase_pure_congr _ _ (erase_emit _ _ _ hab)
    | p =>
      simp only [handleElement, handleElementNP]
      exact paragraphHandler_np children _ _ (erase_mk_pfx _ _ _ _ _ _ _ _ _ _ _)
    | ul =>
      simp only [handleElement, handleElementNP]
      exact paragraphHandler_np children _ _ (erase_mk_pfx _ _ _ _ _ _ _ _ _ _ _)
    | table =>
      simp only [handleElement, handleElementNP]
      cases hpt : o1.PrettyTables with
      | false =>
        simp only [Bool.false_eq_true, reduceIte]
        refine optErase_map_congr _ _ (paragraphHandler_np children _ _ (erase_mk_pfx _ _ _ _ _ _ _ _ _ _ _)) _ _ ?_
        intro a b hab
        exact erase_congr_tableLevel _ _ hab (fun n => n - 1)
      | true =>
        simp only [reduceIte]
        refine optErase_map_congr _ _
          (handleTableElement_np .table attrs children _ _ (erase_mk_pfx _ _ _ _ _ _ _ _ _ _ _)) _ _ ?_
        intro a b hab
        exact erase_congr_tableLevel _ _ hab (fun n => n - 1)
    | tfoot =>
      simp only [handleElement, handleElementNP]
      cases hpt : o1.PrettyTables with
      | false =>
        simp only [Bool.false_eq_true, reduceIte]
        exact traverseChildren_np children _ _ (erase_mk_pfx _ _ _ _ _ _ _ _ _ _ _)
      | true =>
        simp only [reduceIte]
        exact handleTableElement_np .tfoot attrs children _ _ (erase_mk_pfx _ _ _ _ _ _ _ _ _ _ _)
    | th =>
      simp only [handleElement, handleElementNP]
      cases hpt : o1.PrettyTables with
      | false =>
        simp only [Bool.false_eq_true, reduceIte]
        exact traverseChildren_np children _ _ (erase_mk_pfx _ _ _ _ _ _ _ _ _ _ _)
      | true =>
        simp only [reduceIte]
        exact handleTableElement_np .th attrs children _ _ (erase_mk_pfx _ _ _ _ _ _ _ _ _ _ _)
    | tr =>
      simp only [handleElement, handleElementNP]
      cases hpt : o1.PrettyTables with
      | false =>
        simp only [Bool.false_eq_true, reduceIte]
        exact traverseChildren_np children _ _ (erase_mk_pfx _ _ _ _ _ _ _ _ _ _ _)
      | true =>
        simp only [reduceIte]
        exact handleTableElement_np .tr attrs children _ _ (erase_mk_pfx _ _ _ _ _ _ _ _ _ _ _)
    | td =>
      simp only [handleElement, handleElementNP]
      cases hpt : o1.PrettyTables with
      | false =>
        simp only [Bool.false_eq_true, reduceIte]
        exact traverseChildren_np children _ _ (erase_mk_pfx _ _ _ _ _ _ _ _ _ _ _)
      | true =>
        simp only [reduceIte]
        exact handleTableElement_np .td attrs children _ _ (erase_mk_pfx _ _ _ _ _ _ _ _ _ _ _)
    | pre =>
      simp only [handleElement, handleElementNP]
      refine optErase_bind_congr _ _ (traverseChildren_np children _ _ (erase_mk_pfx _ _ _ _ _ _ _ _ _ _ _)) _ _ ?_
      intro a b hab
      exact optErase_pure_congr _ _ (erase_congr_isPre _ _ hab false)
    | style =>
      simp only [handleElement, handleElementNP]
      exact optErase_pure_congr _ _ (erase_mk_pfx _ _ _ _ _ _ _ _ _ _ _)
    | script =>
      simp only [handleElement, handleElementNP]
      exact optErase_pure_congr _ _ (erase_mk_pfx _ _ _ _ _ _ _ _ _ _ _)
    | head =>
      simp only [handleElement, handleElementNP]
      exact optErase_pure_congr _ _ (erase_mk_pfx _ _ _ _ _ _ _ _ _ _ _)
    | img =>
      simp only [handleElement, handleElementNP]
      exact traverseChildren_np children _ _ (erase_mk_pfx _ _ _ _ _ _ _ _ _ _ _)
    | tbody =>
      simp only [handleElement, handleElementNP]
      exact traverseChildren_np children _ _ (erase_mk_pfx _ _ _ _ _ _ _ _ _ _ _)
    | thead =>
      simp only [handleElement, handleElementNP]
      exact traverseChildren_np children _ _ (erase_mk_pfx _ _ _ _ _ _ _ _ _ _ _)
    | other =>
      simp only [handleElement, handleElementNP]
      exact traverseChildren_np children _ _ (erase_mk_pfx _ _ _ _ _ _ _ _ _ _ _)
termination_by tag attrs children => (sizeOf children, 3)

theorem paragraphHandler_np : ∀ (children : List Node) (c1 c2 : TextifyTraverseContext),
    eraseCtx c1 = eraseCtx c2 →
    optErase (paragraphHandler c1 children) = optErase (paragraphHandlerNP c2 children)
  | children, c1, c2, h => by
    simp only [paragraphHandler, paragraphHandlerNP]
    refine optErase_bind_congr _ _
      (traverseChildren_np children _ _ (erase_emit _ _ _ h)) _ _ ?_
    intro a b hab
    exact optErase_pure_congr _ _ (erase_emit _ _ _ hab)
termination_by children => (sizeOf children, 1)

theorem handleTableElement_np : ∀ (tag : Atom) (attrs : List (String × String))
    (children : List Node) (c1 c2 : TextifyTraverseContext),
    eraseCtx c1 = eraseCtx c2 →
    optErase (handleTableElement c1 tag attrs children) =
      optErase (handleTableElementNP c2 tag attrs children)
  | tag, attrs, children, c1, c2, h => by
    obtain ⟨b1, p1, t1, o1, e1, j1, q1, v1, w1, i1⟩ := c1
    obtain ⟨b2, p2, t2, o2, e2, j2, q2, v2, w2, i2⟩ := c2
    obtain ⟨rfl, rfl, rfl, rfl, rfl, rfl, rfl, rfl, rfl⟩ := eraseCtx_inj _ _ h
    cases tag
    case table =>
      simp only [handleTableElement, handleTableElementNP]
      cases hpt : o1.PrettyTables with
      | false => simp only [Bool.not_false, reduceIte]
      | true =>
        simp only [Bool.not_true, Bool.false_eq_true, reduceIte]
        refine optErase_bind_congr _ _ (traverseChildren_np children _ _
          (erase_congr_tableCtx _ _ (erase_emit _ _ _ (erase_mk_pfx _ _ _ _ _ _ _ _ _ _ _))
            (fun _ => TableTraverseContext.init))) _ _ ?_
        intro a b hab
        have ht2 : a.tableCtx = b.tableCtx := (eraseCtx_inj a b hab).2.1
        simp only [ht2]
        exact optErase_pure_congr _ _ (erase_emit _ _ _ (erase_emit _ _ _ hab))
    case tfoot =>
      simp only [handleTableElement, handleTableElementNP]
      cases hpt : o1.PrettyTables with
      | false => simp only [Bool.not_false, reduceIte]
      | true =>
        simp only [Bool.not_true, Bool.false_eq_true, reduceIte]
        refine optErase_bind_congr _ _ (traverseChildren_np children _ _
          (erase_congr_tableCtx _ _ (erase_mk_pfx _ _ _ _ _ _ _ _ _ _ _)
            (fun t => { t with isInFooter := true }))) _ _ ?_
        intro a b hab
        exact optErase_pure_congr _ _
          (erase_congr_tableCtx _ _ hab (fun t => { t with isInFooter := false }))
    case tr =>
      simp only [handleTableElement, handleTableElementNP]
      cases hpt : o1.PrettyTables with
      | false => simp only [Bool.not_false, reduceIte]
      | true =>
        simp only [Bool.not_true, Bool.false_eq_true, reduceIte]
        refine optErase_bind_congr _ _ (traverseChildren_np children _ _
          (erase_congr_tableCtx _ _ (erase_mk_pfx _ _ _ _ _ _ _ _ _ _ _)
            (fun t => { t with body := t.body ++ [[]] }))) _ _ ?_
        intro a b hab
        exact optErase_pure_congr _ _
          (erase_congr_tableCtx _ _ hab (fun t => { t with tmpRow := t.tmpRow + 1 }))
    case th =>
      simp only [handleTableElement, handleTableElementNP]
      cases hpt : o1.PrettyTables with
      | false => simp only [Bool.not_false, reduceIte]
      | true =>
        simp only [Bool.not_true, Bool.false_eq_true, reduceIte]
        rw [renderEachChild_np children o1]
        refine optErase_bind_str_congr _ _ _ ?_
        intro s
        exact optErase_pure_congr _ _ (erase_mk_pfx _ _ _ _ _ _ _ _ _ _ _)
    case td =>
      simp only [handleTableElement, handleTableElementNP]
      cases hpt : o1.PrettyTables with
      | false => simp only [Bool.not_false, reduceIte]
      | true =>
        simp only [Bool.not_true, Bool.false_eq_true, reduceIte]
        rw [renderEachChild_np children o1]
        refine optErase_bind_str_congr _ _ _ ?_
        intro s
        by_cases hf : t1.isInFooter = true
        · simp only [if_pos hf]
          exact optErase_pure_congr _ _ (erase_mk_pfx _ _ _ _ _ _ _ _ _ _ _)
        · simp only [if_neg hf]
          by_cases hlt : t1.tmpRow < t1.body.length
          · simp only [dif_pos hlt]
            exact optErase_pure_congr _ _ (erase_mk_pfx _ _ _ _ _ _ _ _ _ _ _)
          · simp only [dif_neg hlt]
    all_goals
      simp only [handleTableElement, handleTableElementNP]
      cases hpt : o1.PrettyTables with
      | false => simp only [Bool.not_false, reduceIte]
      | true =>
        simp only [Bool.not_true, Bool.false_eq_true, reduceIte]
        exact optErase_pure_congr _ _ (erase_mk_pfx _ _ _ _ _ _ _ _ _ _ _)
termination_by tag attrs children => (sizeOf children, 2)

theorem traverseChildren_np : ∀ (l : List Node) (c1 c2 : TextifyTraverseContext),
    eraseCtx c1 = eraseCtx c2 →
    optErase (traverseChildren c1 l) = optErase (traverseChildrenNP c2 l)
  | [], c1, c2, h => by
    simp only [traverseChildren, traverseChildrenNP]
    exact optErase_pure_congr _ _ h
  | c :: cs, c1, c2, h => by
    simp only [traverseChildren, traverseChildrenNP]
    exact optErase_bind_congr _ _ (traverse_np c c1 c2 h) _ _
      (fun a b hab => traverseChildren_np cs a b hab)
termination_by l => (sizeOf l, 0)

theorem renderEachChild_np : ∀ (l : List Node) (opts : Options),
    renderEachChild opts l = renderEachChildNP opts l
  | [], _ => by simp [renderEachChild, renderEachChildNP]
  | [c], opts => by
    simp only [renderEachChild, renderEachChildNP]
    have h := traverse_np c (initialContext opts) (initialContext opts) rfl
    cases h1 : traverse (initialContext opts) c with
    | none =>
      cases h2 : traverseNP (initialContext opts) c with
      | none => rfl
      | some b => rw [h1, h2] at h; simp [optErase] at h
    | some a =>
      cases h2 : traverseNP (initialContext opts) c with
      | none => rw [h1, h2] at h; simp [optErase] at h
      | some b =>
        rw [h1, h2] at h
        simp only [optErase, Option.map_some', Option.some.injEq] at h
        have hbuf : a.buf = b.buf := (eraseCtx_inj a b h).1
        simp [hbuf]
  | c :: c2 :: cs, opts => by
    simp only [renderEachChild, renderEachChildNP]
    have h := traverse_np c (initialContext opts) (initialContext opts) rfl
    rw [renderEachChild_np (c2 :: cs) opts]
    cases h1 : traverse (initialContext opts) c with
    | none =>
      cases h2 : traverseNP (initialContext opts) c with
      | none => rfl
      | some b => rw [h1, h2] at h; simp [optErase] at h
    | some a =>
      cases h2 : traverseNP (initialContext opts) c with
      | none => rw [h1, h2] at h; simp [optErase] at h
      | some b =>
        rw [h1, h2] at h
        simp only [optErase, Option.map_some', Option.some.injEq] at h
        have hbuf : a.buf = b.buf := (eraseCtx_inj a b h).1
        simp [hbuf]
termination_by l _ => (sizeOf l, 0)

end

/-- Claim C8: the blockquote prefix string stored in the render context is
assigned on blockquote entry and exit but never read when emitting output:
for every input document and options, rendering with the prefix assignments
removed (`FromHTMLNodeNP`) produces exactly the same output string as the
original renderer (`FromHTMLNode`). -/
theorem c8_prefix_never_read (node : Node) (opts : Options) :
    FromHTMLNode node opts = FromHTMLNodeNP node opts := by
  simp only [FromHTMLNode, FromHTMLNodeNP]
  have h := traverse_np node (initialContext opts) (initialContext opts) rfl
  cases h1 : traverse (initialContext opts) node with
  | none =>
    cases h2 : traverseNP (initialContext opts) node with
    | none => rfl
    | some b => rw [h1, h2] at h; simp [optErase] at h
  | some a =>
    cases h2 : traverseNP (initialContext opts) node with
    | none => rw [h1, h2] at h; simp [optErase] at h
    | some b =>
      rw [h1, h2] at h
      simp only [optErase, Option.map_some', Option.some.injEq] at h
      have hbuf : a.buf = b.buf := (eraseCtx_inj a b h).1
      simp [hbuf]

end Html2Text
